import Mathlib

/-!
A shallow embedding of the partial path-lookup engine of
`vendor/github.com/cyphar/filepath-securejoin/lookup_linux.go`
(`symlinkStack` and `partialLookupInRoot`), together with proofs of the
specified properties.

Path text is modelled as `List Char` (Go strings are byte sequences and the
code splits on the byte `'/'`).  The filesystem is static during a call (the
engine only reads it), and is a map from absolute component lists to nodes.
Directory handles (`*os.File`) are modelled as a fresh numeric identifier
paired with the filesystem path the handle denotes; the ambient handle state
tracks the multiset of open handle ids so that handle-leak properties can be
stated.  The collaborators that live outside this file's source
(`dupFile`, `openatFile`, `readlinkatFile`, `procSelfFdReadlink`,
`checkProcSelfFdPath`, `hasOpenat2`, `maxSymlinkLimit`) are modelled from the
spec's description of them, as noted on each definition.
-/

namespace SecureJoin

/-- One path component (a maximal run of non-`'/'` characters). -/
abbrev Comp := List Char

/-- An absolute filesystem location, as the list of components from `/`. -/
abbrev FPath := List Comp

/-- Path text, the unit the engine actually manipulates. -/
abbrev Str := List Char

/-- The classification `partialLookupInRoot` performs on a stat result:
directory, symlink (with its target text) or any other file type. -/
inductive FNode where
  | dir : FNode
  | symlink (target : Str) : FNode
  | other : FNode
deriving DecidableEq

/-- A static snapshot of the filesystem: which node, if any, lives at each
absolute location. -/
abbrev FS := FPath → Option FNode

/-- Modelled from the spec: a directory handle (`*os.File`).  `id` is the
descriptor identity (fresh per open/duplicate), `fpath` the location the
handle denotes; the spec's authoritative path query (`/proc/self/fd`)
returns `fpath`. -/
structure FHandle where
  id : Nat
  fpath : FPath
deriving DecidableEq

/-- The ambient handle-table state: the next fresh descriptor id and the
multiset of currently-open descriptor ids. -/
structure HSt where
  next : Nat
  opened : Multiset Nat
deriving DecidableEq

/-- Modelled from the spec: `duplicate(handle) -> owned_handle`; allocates a
fresh descriptor denoting the same location. -/
def dupFile (st : HSt) (h : FHandle) : FHandle × HSt :=
  (⟨st.next, h.fpath⟩, ⟨st.next + 1, st.next ::ₘ st.opened⟩)

/-- Closing a handle releases its descriptor id (closing an already-closed
handle is a no-op, as the source ignores `Close` errors). -/
def closeFile (st : HSt) (h : FHandle) : HSt :=
  ⟨st.next, st.opened.erase h.id⟩

/-- The location one component below `p`: `.` stays, `..` is the lexical
parent, any other name descends. -/
def childPath (p : FPath) (part : Comp) : FPath :=
  if part = ['.'] then p
  else if part = ['.', '.'] then p.dropLast
  else p ++ [part]

/-- Modelled from the spec: `open_component(directory, name, flags)` with
`O_PATH|O_NOFOLLOW|O_CLOEXEC`: opens exactly one component relative to a
directory without following a trailing symlink; fails with not-found when
nothing lives there. -/
def openatFile (fs : FS) (st : HSt) (h : FHandle) (part : Comp) :
    Except Unit (FHandle × HSt) :=
  match fs (childPath h.fpath part) with
  | none => .error ()
  | some _ =>
      .ok (⟨st.next, childPath h.fpath part⟩, ⟨st.next + 1, st.next ::ₘ st.opened⟩)

/-- `Stat` on an open handle, reduced to the type classification the source
switches on. -/
def statFile (fs : FS) (h : FHandle) : Option FNode :=
  fs h.fpath

/-- Error outcomes of `read_symlink`: `EINVAL` (the name is not a symlink)
or not-found. -/
inductive RlErr where
  | einval : RlErr
  | notExist : RlErr
deriving DecidableEq

/-- Modelled from the spec: `read_symlink(directory, name)`; a separate
`readlinkat`-style lookup of `name` under the directory. -/
def readlinkatFile (fs : FS) (h : FHandle) (part : Comp) : Except RlErr Str :=
  match fs (childPath h.fpath part) with
  | some (.symlink t) => .ok t
  | some _ => .error .einval
  | none => .error .notExist

/-- `strings.IndexByte(s, '/')` splitting: the text before the first slash
and the text after it (all of `s` and `""` when there is no slash; the
source's two cases produce exactly these values). -/
def splitFirst : Str → Comp × Str
  | [] => ([], [])
  | c :: rest =>
      if c = '/' then ([], rest)
      else (c :: (splitFirst rest).1, (splitFirst rest).2)

theorem splitFirst_snd_length (s : Str) : (splitFirst s).2.length ≤ s.length := by
  induction s with
  | nil => simp [splitFirst]
  | cons c rest ih =>
      simp only [splitFirst]
      split
      · simp
      · simp only []
        calc (splitFirst rest).2.length ≤ rest.length := ih
          _ ≤ (c :: rest).length := by simp

/-- Character-by-character worker for `pathComps`; `acc` holds the reversed
prefix of the component currently being read. -/
def compsGo : Str → Comp → List Comp
  | [], acc => if acc = [] then [] else [acc.reverse]
  | c :: rest, acc =>
      if c = '/' then
        if acc = [] then compsGo rest [] else acc.reverse :: compsGo rest []
      else compsGo rest (c :: acc)

/-- `strings.Split(target, "/")` followed by dropping empty parts, as
`symlinkStack.push` computes `linkTargetParts`: the non-empty `/`-separated
components of the text. -/
def pathComps (s : Str) : List Comp :=
  compsGo s []

theorem compsGo_acc (s : Str) (a : Char) (acc : Comp) :
    compsGo s (a :: acc) =
      ((a :: acc).reverse ++ (splitFirst s).1) :: pathComps (splitFirst s).2 := by
  induction s generalizing a acc with
  | nil => simp [compsGo, splitFirst, pathComps]
  | cons c rest ih =>
      simp only [compsGo, splitFirst]
      by_cases hc : c = '/'
      · simp [hc, pathComps]
      · rw [if_neg hc, if_neg hc, ih c (a :: acc)]
        simp

theorem pathComps_cons (c : Char) (rest : Str) :
    pathComps (c :: rest) =
      if c = '/' then pathComps rest
      else (c :: (splitFirst rest).1) :: pathComps (splitFirst rest).2 := by
  by_cases hc : c = '/'
  · simp [pathComps, compsGo, hc]
  · rw [if_neg hc]
    have h0 : pathComps (c :: rest) = compsGo rest [c] := by
      simp [pathComps, compsGo, hc]
    rw [h0, compsGo_acc rest c []]
    simp

theorem pathComps_nil : pathComps [] = [] := rfl

/-- `path.IsAbs`: the target starts with `'/'`. -/
def isAbs : Str → Bool
  | [] => false
  | c :: _ => c = '/'

/-- `path.Join("/", currentPath, part)` on an already-clean absolute path,
represented as its component list: `.` keeps it, `..` drops the last
component, any other single component is appended. -/
def lexJoin (cp : FPath) (part : Comp) : FPath :=
  if part = ['.'] then cp
  else if part = ['.', '.'] then cp.dropLast
  else cp ++ [part]

/-- Render an absolute component list the way `/proc/self/fd` renders it
(`"/"` for the filesystem root, `"/a/b"` otherwise). -/
def pathStr (p : FPath) : Str :=
  if p = [] then ['/']
  else p.foldl (fun acc c => acc ++ '/' :: c) []

/-! ## The symlink stack (`symlinkStack` in the source) -/

/-- `symlinkStackEntry`: the `(dir, remainingPath)` that would have been
returned had the symlink not existed, plus the target components not yet
rewalked. -/
structure SEntry where
  dir : FHandle
  rem : Str
  unwalked : List Comp
deriving DecidableEq

/-- `symlinkStack`: oldest entry first, appended at the tail. -/
abbrev SStack := List SEntry

/-- Errors of the stack's pop operations. -/
inductive PopErr where
  | emptyStack : PopErr
  | broken : PopErr
deriving DecidableEq

/-- `symlinkStack.popPart`: demand that the tail entry's next unwalked
component is `part` and consume it (keeping the entry even when emptied). -/
def popPart (part : Comp) (s : SStack) : Except PopErr SStack :=
  match s.getLast? with
  | none => .error .emptyStack
  | some e =>
      match e.unwalked with
      | [] => .error .broken
      | h :: t =>
          if h = part then .ok (s.dropLast ++ [{ e with unwalked := t }])
          else .error .broken

/-- The backward cleanup pass of `symlinkStack.PopPart`, on the reversed
stack: drop (and close) consecutive emptied entries. -/
def dropEmptyRev (st : HSt) : SStack → HSt × SStack
  | [] => (st, [])
  | e :: rest =>
      if e.unwalked = [] then dropEmptyRev (closeFile st e.dir) rest
      else (st, e :: rest)

/-- Remove the trailing emptied entries of the stack, closing each. -/
def cleanupStack (st : HSt) (s : SStack) : HSt × SStack :=
  let (st', r) := dropEmptyRev st s.reverse
  (st', r.reverse)

/-- `symlinkStack.PopPart`: an empty stack is a no-op success; otherwise
`popPart` followed by the trailing cleanup. -/
def PopPart (st : HSt) (part : Comp) (s : SStack) : Except PopErr (HSt × SStack) :=
  match popPart part s with
  | .error .emptyStack => .ok (st, s)
  | .error .broken => .error .broken
  | .ok s' => .ok (cleanupStack st s')

/-- `symlinkStack.push`: split the target into its non-empty components; a
target with none is a no-op, otherwise duplicate the directory and append
an entry. -/
def pushStack (st : HSt) (s : SStack) (dir : FHandle) (rem : Str) (target : Str) :
    HSt × SStack :=
  let parts := pathComps target
  if parts = [] then (st, s)
  else
    let (d, st') := dupFile st dir
    (st', s ++ [⟨d, rem, parts⟩])

/-- `symlinkStack.SwapLink`: consume the link's own component from the tail
entry (treating an empty stack as fine), keeping the entry even if emptied,
then push the new link entry. -/
def swapLink (st : HSt) (s : SStack) (part : Comp) (dir : FHandle)
    (rem target : Str) : Except PopErr (HSt × SStack) :=
  match popPart part s with
  | .error .emptyStack => .ok (pushStack st s dir rem target)
  | .error .broken => .error .broken
  | .ok s' => .ok (pushStack st s' dir rem target)

/-- `symlinkStack.PopTopSymlink`: remove and return the front (oldest)
entry. -/
def popTopSymlink (s : SStack) : Option (FHandle × Str × SStack) :=
  match s with
  | [] => none
  | e :: rest => some (e.dir, e.rem, rest)

/-- Close every entry still parked in the stack (`symlinkStack.Close`). -/
def closeAllEntries (st : HSt) (s : SStack) : HSt :=
  s.foldl (fun a e => closeFile a e.dir) st

/-! ## The walk (`partialLookupInRoot` in the source) -/

/-- Ghost events recording what the walk did, used to state the temporal
race-check property: a completed directory transition into `part`, and a
performed ancestry race check. -/
inductive Event where
  | descend (part : Comp) : Event
  | raceCheck : Event
deriving DecidableEq

/-- Fatal error classes of the walk. -/
inductive LErr where
  | attack : LErr
  | eloop (p : Str) : LErr
  | broken : LErr
  | ioErr : LErr
deriving DecidableEq

/-- Modelled from the spec: the per-call configuration.  `fs` is the static
filesystem snapshot; `maxSym` the configured symlink-recursion bound
(`maxSymlinkLimit`, declared outside this file); `check` an oracle giving
the outcome of the n-th authoritative `/proc/self/fd` comparison, modelling
whether a concurrent mutator has moved the inspected handle by then (all
`true` means the tree is unmolested). -/
structure Cfg where
  fs : FS
  maxSym : Nat
  check : Nat → Bool

/-- The engine's walk state: handle table, symlink stack, symlinks-followed
counter, current directory, current logical path, remaining path text, the
count of race-check comparisons performed, and the ghost event trace. -/
structure WSt where
  hst : HSt
  stack : SStack
  links : Nat
  cur : FHandle
  cp : FPath
  rem : Str
  checksDone : Nat
  events : List Event
deriving DecidableEq

/-- State at a `return` with `Err == nil`: the deferred `symlinkStack.Close`
runs, the deferred `currentDir.Close` does not. -/
def finishOk (w : WSt) : WSt :=
  { w with hst := closeAllEntries w.hst w.stack, stack := [] }

/-- State at a `return` with `Err != nil`: the deferred `symlinkStack.Close`
runs, then the deferred `currentDir.Close`. -/
def finishFail (w : WSt) : WSt :=
  { w with hst := closeFile (closeAllEntries w.hst w.stack) w.cur, stack := [] }

/-- Outcome of one iteration of the walk loop. -/
inductive StepRes where
  | cont (w : WSt) : StepRes
  | done (h : FHandle) (rem : Str) (w : WSt) : StepRes
  | fail (e : LErr) (w : WSt) : StepRes
deriving DecidableEq

/-- One iteration of the `for remainingPath != ""` loop body of
`partialLookupInRoot` (the caller guarantees `w.rem ≠ []`).
`root` is the caller's root handle, `logicalRoot` the authoritative root
path captured at entry, `origPath` the original `unsafePath`. -/
def lookupStep (cfg : Cfg) (root : FHandle) (logicalRoot : FPath)
    (origPath : Str) (w : WSt) : StepRes :=
  let old := w.rem
  let pr := splitFirst w.rem
  let part := pr.1
  let rem1 := pr.2
  -- Skip any "//" components.
  if part = [] then .cont { w with rem := rem1 }
  else
    let ncp := lexJoin w.cp part
    if ncp = [] then
      -- Logically hit the root: pop the stack and jump to a root clone.
      match PopPart w.hst part w.stack with
      | .error _ => .fail .broken (finishFail { w with rem := rem1 })
      | .ok (h1, s1) =>
          let (rc, h2) := dupFile h1 root
          let h3 := closeFile h2 w.cur
          .cont { w with hst := h3, stack := s1, cur := rc, cp := ncp, rem := rem1 }
    else
      match openatFile cfg.fs w.hst w.cur part with
      | .error _ =>
          -- ENOENT: dangling-symlink emulation, else the partial result.
          match popTopSymlink w.stack with
          | some (d, r, rest) =>
              .done d r (finishOk { w with hst := closeFile w.hst w.cur,
                                           stack := rest, rem := rem1 })
          | none => .done w.cur old (finishOk { w with rem := rem1 })
      | .ok (nd, h1) =>
          match statFile cfg.fs nd with
          | none => .fail .ioErr (finishFail { w with hst := closeFile h1 nd, rem := rem1 })
          | some .dir =>
              -- Walk into the directory, then reconcile the stack.
              let h2 := closeFile h1 w.cur
              let w1 := { w with hst := h2, cur := nd, cp := ncp, rem := rem1 }
              match PopPart w1.hst part w1.stack with
              | .error _ => .fail .broken (finishFail w1)
              | .ok (h3, s1) =>
                  let w2 := { w1 with hst := h3, stack := s1,
                                      events := w1.events ++ [.descend part] }
                  if part = ['.', '.'] then
                    -- The ancestry race check, only after a `..` transition.
                    let w3 := { w2 with checksDone := w2.checksDone + 2,
                                        events := w2.events ++ [.raceCheck] }
                    if (logicalRoot = root.fpath) ∧ cfg.check w2.checksDone then
                      if (logicalRoot ++ ncp = nd.fpath) ∧ cfg.check (w2.checksDone + 1) then
                        .cont w3
                      else .fail .attack (finishFail w3)
                    else .fail .attack (finishFail w3)
                  else .cont w2
          | some (.symlink _) =>
              -- Do not follow: close the handle, readlink separately.
              let h2 := closeFile h1 nd
              match readlinkatFile cfg.fs w.cur part with
              | .error .einval => .fail .attack (finishFail { w with hst := h2, rem := rem1 })
              | .error .notExist => .fail .ioErr (finishFail { w with hst := h2, rem := rem1 })
              | .ok target =>
                  let links := w.links + 1
                  if cfg.maxSym < links then
                    .fail (.eloop (pathStr logicalRoot ++ '/' :: origPath))
                      (finishFail { w with hst := h2, rem := rem1 })
                  else
                    match swapLink h2 w.stack part w.cur old target with
                    | .error _ => .fail .broken (finishFail { w with hst := h2, rem := rem1 })
                    | .ok (h3, s1) =>
                        let rem2 := target ++ '/' :: rem1
                        if isAbs target then
                          let (rc, h4) := dupFile h3 root
                          let h5 := closeFile h4 w.cur
                          .cont { w with hst := h5, stack := s1, links := links,
                                         cur := rc, cp := [], rem := rem2 }
                        else
                          .cont { w with hst := h3, stack := s1, links := links,
                                         rem := rem2 }
          | some .other =>
              -- A non-directory terminal: same shape as ENOENT, but the
              -- just-opened component handle is the answer.
              let h2 := closeFile h1 w.cur
              match PopPart h2 part w.stack with
              | .error _ =>
                  -- NB: the source does not close `nextDir` on this path.
                  .fail .broken (finishFail { w with hst := h2, rem := rem1 })
              | .ok (h3, s1) =>
                  match popTopSymlink s1 with
                  | some (d, r, rest) =>
                      .done d r (finishOk { w with hst := closeFile h3 nd,
                                                   stack := rest, rem := rem1 })
                  | none => .done nd rem1 (finishOk { w with hst := h3, stack := [], rem := rem1 })

/-- The outcome of a finished walk: the partial-lookup result pair, or a
fatal error. -/
abbrev LRes := (FHandle × Str) ⊕ LErr

/-- The `for remainingPath != ""` loop, with explicit fuel (`none` means the
fuel ran out before the loop terminated).  The final `WSt` carries the
handle table after all deferred closes. -/
def lookupLoop (cfg : Cfg) (root : FHandle) (logicalRoot : FPath)
    (origPath : Str) : Nat → WSt → Option (LRes × WSt)
  | 0, _ => none
  | fuel + 1, w =>
      if w.rem = [] then some (.inl (w.cur, []), finishOk w)
      else
        match lookupStep cfg root logicalRoot origPath w with
        | .cont w' => lookupLoop cfg root logicalRoot origPath fuel w'
        | .done h r w' => some (.inl (h, r), w')
        | .fail e w' => some (.inr e, w')

/-- `partialLookupInRoot(root, unsafePath)`: capture the authoritative root
path, duplicate the root as the initial current directory, and run the
walk.  (`hasOpenat2` is modelled as unavailable: the spec places the
`openat2` fast path out of scope, and this engine is its fallback.) -/
def partialLookupInRoot (cfg : Cfg) (st0 : HSt) (root : FHandle)
    (unsafePath : Str) (fuel : Nat) : Option (LRes × WSt) :=
  let logicalRoot := root.fpath
  let (cur0, h1) := dupFile st0 root
  lookupLoop cfg root logicalRoot unsafePath fuel
    { hst := h1, stack := [], links := 0, cur := cur0, cp := [],
      rem := unsafePath, checksDone := 0, events := [] }

/-! ## Basic facts about path-text splitting -/

theorem splitFirst_snd_suffix (s : Str) : (splitFirst s).2 <:+ s := by
  induction s with
  | nil => simp [splitFirst]
  | cons c rest ih =>
      simp only [splitFirst]
      split
      · exact List.suffix_cons c rest
      · exact ih.trans (List.suffix_cons c rest)

theorem splitFirst_reconstruct (s : Str) :
    s = (splitFirst s).1 ++ '/' :: (splitFirst s).2 ∨
    (s = (splitFirst s).1 ∧ (splitFirst s).2 = []) := by
  induction s with
  | nil => right; simp [splitFirst]
  | cons c rest ih =>
      simp only [splitFirst]
      split
      · left; simp_all
      · rcases ih with h | ⟨h1, h2⟩
        · left; simpa using congrArg (c :: ·) h
        · right; constructor
          · simpa using congrArg (c :: ·) h1
          · exact h2

theorem rem_ne_nil_of_part {s : Str} (hp : (splitFirst s).1 ≠ []) : s ≠ [] := by
  intro h
  rw [h] at hp
  simp [splitFirst] at hp

/-! ## C8: behaviour of `PopPart` -/

/-- C8: `PopPart` on an empty stack succeeds and leaves the stack (and the
handle table) unchanged; on a non-empty stack it succeeds exactly when the
tail entry's first unwalked component equals the given component, consuming
it and then running the trailing cleanup; it fails with the
internal-consistency error both when the tail entry has no unwalked
components and when the head component mismatches. -/
theorem PopPart_spec :
    (∀ (st : HSt) (part : Comp), PopPart st part [] = .ok (st, [])) ∧
    (∀ (st : HSt) (part : Comp) (s0 : SStack) (e : SEntry) (t : List Comp),
      e.unwalked = part :: t →
      PopPart st part (s0 ++ [e]) =
        .ok (cleanupStack st (s0 ++ [{ e with unwalked := t }]))) ∧
    (∀ (st : HSt) (part : Comp) (s0 : SStack) (e : SEntry),
      e.unwalked = [] → PopPart st part (s0 ++ [e]) = .error .broken) ∧
    (∀ (st : HSt) (part : Comp) (s0 : SStack) (e : SEntry) (h : Comp) (t : List Comp),
      e.unwalked = h :: t → h ≠ part → PopPart st part (s0 ++ [e]) = .error .broken) := by
  refine ⟨fun st part => rfl, fun st part s0 e t hu => ?_, fun st part s0 e hu => ?_,
    fun st part s0 e h t hu hne => ?_⟩
  · simp [PopPart, popPart, List.getLast?_concat, List.dropLast_concat, hu]
  · simp [PopPart, popPart, List.getLast?_concat, hu]
  · simp [PopPart, popPart, List.getLast?_concat, hu, hne]

/-- Witness for `PopPart_spec` at concrete stacks. -/
theorem PopPart_spec_witness :
    PopPart ⟨1, {0}⟩ ['a'] [] = .ok (⟨1, {0}⟩, []) ∧
    PopPart ⟨1, {0}⟩ ['a'] [⟨⟨0, []⟩, ['a'], [['a']]⟩] =
      .ok (cleanupStack ⟨1, {0}⟩ [⟨⟨0, []⟩, ['a'], []⟩]) ∧
    PopPart ⟨1, {0}⟩ ['a'] [⟨⟨0, []⟩, ['a'], []⟩] = .error .broken ∧
    PopPart ⟨1, {0}⟩ ['a'] [⟨⟨0, []⟩, ['a'], [['b']]⟩] = .error .broken :=
  ⟨PopPart_spec.1 _ _,
   PopPart_spec.2.1 ⟨1, {0}⟩ ['a'] [] ⟨⟨0, []⟩, ['a'], [['a']]⟩ [] rfl,
   PopPart_spec.2.2.1 ⟨1, {0}⟩ ['a'] [] ⟨⟨0, []⟩, ['a'], []⟩ rfl,
   PopPart_spec.2.2.2 ⟨1, {0}⟩ ['a'] [] ⟨⟨0, []⟩, ['a'], [['b']]⟩ ['b'] [] rfl (by decide)⟩

/-! ## C10: paths consisting solely of separators -/

theorem lookupLoop_allslash (cfg : Cfg) (root : FHandle) (lr : FPath) (orig : Str) :
    ∀ (fuel : Nat) (w : WSt), (∀ c ∈ w.rem, c = '/') → w.rem.length < fuel →
    lookupLoop cfg root lr orig fuel w =
      some (.inl (w.cur, []), finishOk { w with rem := [] }) := by
  intro fuel
  induction fuel with
  | zero => intro w _ h; omega
  | succ n ih =>
      intro w hs hl
      unfold lookupLoop
      by_cases h : w.rem = []
      · have hw : { w with rem := ([] : Str) } = w := by
          cases w; simp_all
        rw [hw, if_pos h]
      · obtain ⟨c, rest, hc⟩ := List.exists_cons_of_ne_nil h
        have hcs : c = '/' := hs c (by rw [hc]; exact List.mem_cons_self c rest)
        have hstep : lookupStep cfg root lr orig w = .cont { w with rem := rest } := by
          simp [lookupStep, hc, splitFirst, hcs]
        rw [if_neg h, hstep]
        exact ih { w with rem := rest }
          (fun d hd => hs d (by rw [hc]; exact List.mem_cons_of_mem c hd))
          (by rw [hc] at hl; simpa using Nat.lt_of_succ_lt_succ hl)

/-- C10: a request path that is empty or consists solely of `'/'`
separators performs no component opens (exactly one descriptor — the
initial duplicate of the root — is ever allocated) and returns, with nil
error, that fresh duplicate of the root paired with an empty remaining
path. -/
theorem partialLookup_allslash (cfg : Cfg) (st0 : HSt) (root : FHandle)
    (p : Str) (fuel : Nat) (hs : ∀ c ∈ p, c = '/') (hf : p.length < fuel) :
    partialLookupInRoot cfg st0 root p fuel =
      some (.inl (⟨st0.next, root.fpath⟩, []),
        ⟨⟨st0.next + 1, st0.next ::ₘ st0.opened⟩, [], 0, ⟨st0.next, root.fpath⟩,
         [], [], 0, []⟩) := by
  have h := lookupLoop_allslash cfg root root.fpath p fuel
    { hst := ⟨st0.next + 1, st0.next ::ₘ st0.opened⟩, stack := [], links := 0,
      cur := ⟨st0.next, root.fpath⟩, cp := [], rem := p, checksDone := 0,
      events := [] } hs hf
  simpa [partialLookupInRoot, dupFile, finishOk, closeAllEntries] using h

/-- Witness for `partialLookup_allslash` on the request `"//"`. -/
theorem partialLookup_allslash_witness :
    partialLookupInRoot ⟨fun _ => none, 255, fun _ => true⟩ ⟨1, {0}⟩ ⟨0, [['r']]⟩
        ['/', '/'] 3 =
      some (.inl (⟨1, [['r']]⟩, []), ⟨⟨2, 1 ::ₘ {0}⟩, [], 0, ⟨1, [['r']]⟩, [], [], 0, []⟩) :=
  partialLookup_allslash _ _ _ _ _ (by decide) (by decide)

/-! ## C2: dangling-chain attribution -/

/-- C2: whenever a component lookup fails with not-found while the
resolution stack is non-empty, the walk returns — with nil error — the
`(directory, remaining_path)` pair saved in the front (oldest) stack
entry. -/
theorem notFound_dangling_returns_front (cfg : Cfg) (root : FHandle) (lr : FPath)
    (orig : Str) (w : WSt) (e : SEntry) (es : SStack) (part : Comp) (rem1 : Str)
    (hsplit : splitFirst w.rem = (part, rem1)) (hpart : part ≠ [])
    (hncp : lexJoin w.cp part ≠ [])
    (hmiss : cfg.fs (childPath w.cur.fpath part) = none)
    (hstack : w.stack = e :: es) :
    (∃ w', lookupStep cfg root lr orig w = .done e.dir e.rem w') ∧
    ∀ fuel, ∃ w', lookupLoop cfg root lr orig (fuel + 1) w =
      some (.inl (e.dir, e.rem), w') := by
  have hrem : w.rem ≠ [] := rem_ne_nil_of_part (by rw [hsplit]; exact hpart)
  have hw' : lookupStep cfg root lr orig w =
      .done e.dir e.rem
        (finishOk { w with hst := closeFile w.hst w.cur, stack := es, rem := rem1 }) := by
    simp [lookupStep, hsplit, hpart, hncp, openatFile, hmiss, hstack, popTopSymlink]
  refine ⟨⟨_, hw'⟩, fun fuel =>
    ⟨finishOk { w with hst := closeFile w.hst w.cur, stack := es, rem := rem1 }, ?_⟩⟩
  unfold lookupLoop
  rw [if_neg hrem, hw']

/-! ## C5: tail-chain preservation in `SwapLink` -/

/-- C5: when `SwapLink` consumes the last unwalked component of the tail
entry and pushes the new link's entry, the outer entry is emptied but kept
on the stack (it is not removed), and the new entry — holding a duplicate
of the current directory — is appended after it. -/
theorem swapLink_tail_chain (st : HSt) (s0 : SStack) (e : SEntry) (part : Comp)
    (dir : FHandle) (rem target : Str) (hu : e.unwalked = [part])
    (ht : pathComps target ≠ []) :
    swapLink st (s0 ++ [e]) part dir rem target =
      .ok (⟨st.next + 1, st.next ::ₘ st.opened⟩,
        (s0 ++ [{ e with unwalked := [] }]) ++
          [⟨⟨st.next, dir.fpath⟩, rem, pathComps target⟩]) := by
  simp [swapLink, popPart, pushStack, dupFile, List.getLast?_concat,
    List.dropLast_concat, hu, ht]

/-! ## A case-analysis principle for `lookupStep`

Every later invariant proof proceeds by cases on the branch the loop body
took; this eliminator performs that case split once.  `nd` and `hopen` name
the handle and handle-table produced by a successful `openatFile`. -/

theorem lookupStep_elim (cfg : Cfg) (root : FHandle) (lr : FPath) (orig : Str)
    (w : WSt) (part : Comp) (rem1 : Str) (hsp : splitFirst w.rem = (part, rem1))
    (nd : FHandle) (hnd : nd = ⟨w.hst.next, childPath w.cur.fpath part⟩)
    (hopen : HSt) (hho : hopen = ⟨w.hst.next + 1, w.hst.next ::ₘ w.hst.opened⟩)
    (C : StepRes → Prop)
    (hSkip : part = [] → C (.cont { w with rem := rem1 }))
    (hJrootErr : ∀ er, part ≠ [] → lexJoin w.cp part = [] →
      PopPart w.hst part w.stack = .error er →
      C (.fail .broken (finishFail { w with rem := rem1 })))
    (hJrootOk : ∀ h1 s1, part ≠ [] → lexJoin w.cp part = [] →
      PopPart w.hst part w.stack = .ok (h1, s1) →
      C (.cont { w with hst := closeFile (dupFile h1 root).2 w.cur, stack := s1,
                        cur := (dupFile h1 root).1, cp := lexJoin w.cp part, rem := rem1 }))
    (hNoentD : ∀ e es, part ≠ [] → lexJoin w.cp part ≠ [] →
      cfg.fs (childPath w.cur.fpath part) = none → w.stack = e :: es →
      C (.done e.dir e.rem
          (finishOk { w with hst := closeFile w.hst w.cur, stack := es, rem := rem1 })))
    (hNoentP : part ≠ [] → lexJoin w.cp part ≠ [] →
      cfg.fs (childPath w.cur.fpath part) = none → w.stack = [] →
      C (.done w.cur w.rem (finishOk { w with rem := rem1 })))
    (hDirErr : ∀ er, part ≠ [] → lexJoin w.cp part ≠ [] →
      cfg.fs (childPath w.cur.fpath part) = some .dir →
      PopPart (closeFile hopen w.cur) part w.stack = .error er →
      C (.fail .broken (finishFail { w with hst := closeFile hopen w.cur, cur := nd,
                                            cp := lexJoin w.cp part, rem := rem1 })))
    (hDirNormal : ∀ h3 s1, part ≠ [] → lexJoin w.cp part ≠ [] →
      cfg.fs (childPath w.cur.fpath part) = some .dir →
      PopPart (closeFile hopen w.cur) part w.stack = .ok (h3, s1) →
      part ≠ ['.', '.'] →
      C (.cont { w with hst := h3, stack := s1, cur := nd, cp := lexJoin w.cp part,
                        rem := rem1, events := w.events ++ [.descend part] }))
    (hDirDDOk : ∀ h3 s1, part ≠ [] → lexJoin w.cp part ≠ [] →
      cfg.fs (childPath w.cur.fpath part) = some .dir →
      PopPart (closeFile hopen w.cur) part w.stack = .ok (h3, s1) →
      part = ['.', '.'] →
      ((lr = root.fpath ∧ cfg.check w.checksDone = true) ∧
        (lr ++ lexJoin w.cp part = nd.fpath ∧ cfg.check (w.checksDone + 1) = true)) →
      C (.cont { w with hst := h3, stack := s1, cur := nd, cp := lexJoin w.cp part,
                        rem := rem1, checksDone := w.checksDone + 2,
                        events := (w.events ++ [.descend part]) ++ [.raceCheck] }))
    (hDirDDFail : ∀ h3 s1, part ≠ [] → lexJoin w.cp part ≠ [] →
      cfg.fs (childPath w.cur.fpath part) = some .dir →
      PopPart (closeFile hopen w.cur) part w.stack = .ok (h3, s1) →
      part = ['.', '.'] →
      ¬((lr = root.fpath ∧ cfg.check w.checksDone = true) ∧
        (lr ++ lexJoin w.cp part = nd.fpath ∧ cfg.check (w.checksDone + 1) = true)) →
      C (.fail .attack (finishFail
          { w with hst := h3, stack := s1, cur := nd, cp := lexJoin w.cp part,
                   rem := rem1, checksDone := w.checksDone + 2,
                   events := (w.events ++ [.descend part]) ++ [.raceCheck] })))
    (hEloop : ∀ t, part ≠ [] → lexJoin w.cp part ≠ [] →
      cfg.fs (childPath w.cur.fpath part) = some (.symlink t) →
      cfg.maxSym < w.links + 1 →
      C (.fail (.eloop (pathStr lr ++ '/' :: orig))
          (finishFail { w with hst := closeFile hopen nd, rem := rem1 })))
    (hSwapErr : ∀ t er, part ≠ [] → lexJoin w.cp part ≠ [] →
      cfg.fs (childPath w.cur.fpath part) = some (.symlink t) →
      ¬cfg.maxSym < w.links + 1 →
      swapLink (closeFile hopen nd) w.stack part w.cur w.rem t = .error er →
      C (.fail .broken (finishFail { w with hst := closeFile hopen nd, rem := rem1 })))
    (hSymRel : ∀ t h3 s1, part ≠ [] → lexJoin w.cp part ≠ [] →
      cfg.fs (childPath w.cur.fpath part) = some (.symlink t) →
      ¬cfg.maxSym < w.links + 1 →
      swapLink (closeFile hopen nd) w.stack part w.cur w.rem t = .ok (h3, s1) →
      isAbs t = false →
      C (.cont { w with hst := h3, stack := s1, links := w.links + 1,
                        rem := t ++ '/' :: rem1 }))
    (hSymAbs : ∀ t h3 s1, part ≠ [] → lexJoin w.cp part ≠ [] →
      cfg.fs (childPath w.cur.fpath part) = some (.symlink t) →
      ¬cfg.maxSym < w.links + 1 →
      swapLink (closeFile hopen nd) w.stack part w.cur w.rem t = .ok (h3, s1) →
      isAbs t = true →
      C (.cont { w with hst := closeFile (dupFile h3 root).2 w.cur, stack := s1,
                        links := w.links + 1, cur := (dupFile h3 root).1, cp := [],
                        rem := t ++ '/' :: rem1 }))
    (hOtherErr : ∀ er, part ≠ [] → lexJoin w.cp part ≠ [] →
      cfg.fs (childPath w.cur.fpath part) = some .other →
      PopPart (closeFile hopen w.cur) part w.stack = .error er →
      C (.fail .broken (finishFail { w with hst := closeFile hopen w.cur, rem := rem1 })))
    (hOtherD : ∀ h3 f rest, part ≠ [] → lexJoin w.cp part ≠ [] →
      cfg.fs (childPath w.cur.fpath part) = some .other →
      PopPart (closeFile hopen w.cur) part w.stack = .ok (h3, f :: rest) →
      C (.done f.dir f.rem
          (finishOk { w with hst := closeFile h3 nd, stack := rest, rem := rem1 })))
    (hOtherP : ∀ h3, part ≠ [] → lexJoin w.cp part ≠ [] →
      cfg.fs (childPath w.cur.fpath part) = some .other →
      PopPart (closeFile hopen w.cur) part w.stack = .ok (h3, []) →
      C (.done nd rem1 (finishOk { w with hst := h3, stack := [], rem := rem1 }))) :
    C (lookupStep cfg root lr orig w) := by
  subst hnd hho
  have hp1 : (splitFirst w.rem).1 = part := by rw [hsp]
  have hp2 : (splitFirst w.rem).2 = rem1 := by rw [hsp]
  subst hp1 hp2
  simp only [lookupStep]
  by_cases hp : (splitFirst w.rem).1 = []
  · rw [if_pos hp]; exact hSkip hp
  · rw [if_neg hp]
    by_cases hj : lexJoin w.cp (splitFirst w.rem).1 = []
    · rw [if_pos hj]
      rcases hPP : PopPart w.hst (splitFirst w.rem).1 w.stack with er | ⟨h1, s1⟩
      · simp only [hPP]; exact hJrootErr er hp hj hPP
      · simp only [hPP]; exact hJrootOk h1 s1 hp hj hPP
    · rw [if_neg hj]
      rcases hfs : cfg.fs (childPath w.cur.fpath (splitFirst w.rem).1) with _ | node
      · simp only [openatFile, hfs]
        rcases hpt : popTopSymlink w.stack with _ | ⟨d, r, rest⟩
        · simp only [hpt]
          have hstk : w.stack = [] := by
            cases hs : w.stack with
            | nil => rfl
            | cons a b => rw [hs] at hpt; simp [popTopSymlink] at hpt
          exact hNoentP hp hj hfs hstk
        · simp only [hpt]
          obtain ⟨e, hstk, hd, hr⟩ :
              ∃ e, w.stack = e :: rest ∧ d = e.dir ∧ r = e.rem := by
            cases hs : w.stack with
            | nil => rw [hs] at hpt; simp [popTopSymlink] at hpt
            | cons a b =>
                rw [hs] at hpt
                simp only [popTopSymlink, Option.some.injEq, Prod.mk.injEq] at hpt
                exact ⟨a, by rw [hpt.2.2], hpt.1.symm, hpt.2.1.symm⟩
          subst hd hr
          exact hNoentD e rest hp hj hfs hstk
      · simp only [openatFile, hfs, statFile]
        cases node with
        | dir =>
            rcases hPP : PopPart
                (closeFile ⟨w.hst.next + 1, w.hst.next ::ₘ w.hst.opened⟩ w.cur)
                (splitFirst w.rem).1 w.stack with er | ⟨h3, s1⟩
            · simp only [hPP]; exact hDirErr er hp hj hfs hPP
            · simp only [hPP]
              by_cases hdd : (splitFirst w.rem).1 = ['.', '.']
              · rw [if_pos hdd]
                by_cases hc1 : (lr = root.fpath ∧ cfg.check w.checksDone = true)
                · rw [if_pos hc1]
                  by_cases hc2 : (lr ++ lexJoin w.cp (splitFirst w.rem).1 =
                      childPath w.cur.fpath (splitFirst w.rem).1 ∧
                      cfg.check (w.checksDone + 1) = true)
                  · rw [if_pos hc2]
                    exact hDirDDOk h3 s1 hp hj hfs hPP hdd ⟨hc1, hc2⟩
                  · rw [if_neg hc2]
                    exact hDirDDFail h3 s1 hp hj hfs hPP hdd (fun h => hc2 h.2)
                · rw [if_neg hc1]
                  exact hDirDDFail h3 s1 hp hj hfs hPP hdd (fun h => hc1 h.1)
              · rw [if_neg hdd]; exact hDirNormal h3 s1 hp hj hfs hPP hdd
        | symlink t =>
            simp only [readlinkatFile, hfs]
            by_cases hel : cfg.maxSym < w.links + 1
            · rw [if_pos hel]; exact hEloop t hp hj hfs hel
            · rw [if_neg hel]
              rcases hSW : swapLink
                  (closeFile ⟨w.hst.next + 1, w.hst.next ::ₘ w.hst.opened⟩
                    ⟨w.hst.next, childPath w.cur.fpath (splitFirst w.rem).1⟩)
                  w.stack (splitFirst w.rem).1 w.cur w.rem t with er | ⟨h3, s1⟩
              · simp only [hSW]; exact hSwapErr t er hp hj hfs hel hSW
              · simp only [hSW]
                rcases hab : isAbs t with _ | _
                · simp only [Bool.false_eq_true, if_false]
                  exact hSymRel t h3 s1 hp hj hfs hel hSW hab
                · simp only [if_true]
                  exact hSymAbs t h3 s1 hp hj hfs hel hSW hab
        | other =>
            rcases hPP : PopPart
                (closeFile ⟨w.hst.next + 1, w.hst.next ::ₘ w.hst.opened⟩ w.cur)
                (splitFirst w.rem).1 w.stack with er | ⟨h3, s1⟩
            · simp only [hPP]; exact hOtherErr er hp hj hfs hPP
            · simp only [hPP]
              rcases hs1 : s1 with _ | ⟨f, rest⟩
              · simp only [popTopSymlink]; exact hOtherP h3 hp hj hfs (hs1 ▸ hPP)
              · simp only [popTopSymlink]; exact hOtherD h3 f rest hp hj hfs (hs1 ▸ hPP)

/-! ## A generic loop invariant principle -/

theorem lookupLoop_inv (cfg : Cfg) (root : FHandle) (lr : FPath) (orig : Str)
    (P : WSt → Prop) (Q : LRes → WSt → Prop)
    (hstep : ∀ w, P w → w.rem ≠ [] →
      (∀ w', lookupStep cfg root lr orig w = .cont w' → P w') ∧
      (∀ h r w', lookupStep cfg root lr orig w = .done h r w' → Q (.inl (h, r)) w') ∧
      (∀ e w', lookupStep cfg root lr orig w = .fail e w' → Q (.inr e) w'))
    (hstop : ∀ w, P w → w.rem = [] → Q (.inl (w.cur, [])) (finishOk w)) :
    ∀ (fuel : Nat) (w : WSt) (res : LRes) (w' : WSt), P w →
      lookupLoop cfg root lr orig fuel w = some (res, w') → Q res w' := by
  intro fuel
  induction fuel with
  | zero => intro w res w' _ h; simp [lookupLoop] at h
  | succ n ih =>
      intro w res w' hP hloop
      unfold lookupLoop at hloop
      by_cases hrem : w.rem = []
      · rw [if_pos hrem] at hloop
        simp only [Option.some.injEq, Prod.mk.injEq] at hloop
        obtain ⟨h1, h2⟩ := hloop
        subst h1 h2
        exact hstop w hP hrem
      · rw [if_neg hrem] at hloop
        obtain ⟨hc, hd, hf⟩ := hstep w hP hrem
        cases hs : lookupStep cfg root lr orig w with
        | cont w2 =>
            simp only [hs] at hloop
            exact ih w2 res w' (hc w2 hs) hloop
        | done h r w2 =>
            simp only [hs, Option.some.injEq, Prod.mk.injEq] at hloop
            obtain ⟨h1, h2⟩ := hloop
            subst h1 h2
            exact hd h r w2 hs
        | fail e w2 =>
            simp only [hs, Option.some.injEq, Prod.mk.injEq] at hloop
            obtain ⟨h1, h2⟩ := hloop
            subst h1 h2
            exact hf e w2 hs

/-! ## Facts about the stack operations -/

/-- The descriptor ids parked in a stack. -/
def stackIds (s : SStack) : List Nat :=
  s.map (fun e => e.dir.id)

theorem popPart_ok_shape {part : Comp} {s s' : SStack}
    (h : popPart part s = .ok s') :
    ∃ e t, s.getLast? = some e ∧ e.unwalked = part :: t ∧
      s' = s.dropLast ++ [{ e with unwalked := t }] := by
  rcases List.eq_nil_or_concat s with rfl | ⟨s0, e, rfl⟩
  · simp [popPart] at h
  · obtain ⟨dh, rh, uh⟩ := e
    simp only [List.concat_eq_append] at h ⊢
    cases uh with
    | nil => simp [popPart, List.getLast?_concat] at h
    | cons hd t =>
        simp only [popPart, List.getLast?_concat, List.dropLast_concat] at h
        by_cases he : hd = part
        · subst he
          rw [if_pos rfl] at h
          refine ⟨⟨dh, rh, hd :: t⟩, t, List.getLast?_concat _, rfl, ?_⟩
          rw [List.dropLast_concat]
          exact (Except.ok.inj h).symm
        · rw [if_neg he] at h
          simp at h

theorem getLast?_eq_some_decomp {α : Type} {l : List α} {a : α}
    (h : l.getLast? = some a) : l = l.dropLast ++ [a] := by
  rcases List.eq_nil_or_concat l with rfl | ⟨l0, b, rfl⟩
  · simp at h
  · simp only [List.concat_eq_append] at h ⊢
    rw [List.getLast?_concat] at h
    obtain rfl := Option.some.inj h
    rw [List.dropLast_concat]

theorem popPart_ok_ids {part : Comp} {s s' : SStack}
    (h : popPart part s = .ok s') : stackIds s' = stackIds s := by
  obtain ⟨e, t, hg, _, rfl⟩ := popPart_ok_shape h
  conv_rhs => rw [getLast?_eq_some_decomp hg]
  simp [stackIds]

theorem popPart_ok_entries {part : Comp} {s s' : SStack}
    (h : popPart part s = .ok s') :
    ∀ e' ∈ s', ∃ e ∈ s, e'.dir = e.dir := by
  obtain ⟨e, t, hg, _, rfl⟩ := popPart_ok_shape h
  intro e' he'
  rcases List.mem_append.1 he' with hm | hm
  · exact ⟨e', (List.dropLast_sublist s).mem hm, rfl⟩
  · obtain rfl := List.mem_singleton.1 hm
    refine ⟨e, ?_, rfl⟩
    rw [getLast?_eq_some_decomp hg]
    exact List.mem_append.2 (Or.inr (List.mem_singleton.2 rfl))

theorem dropEmptyRev_suffix (st : HSt) (s : SStack) :
    (dropEmptyRev st s).2 <:+ s ∧ (dropEmptyRev st s).1.next = st.next := by
  induction s generalizing st with
  | nil => simp [dropEmptyRev]
  | cons e rest ih =>
      simp only [dropEmptyRev]
      split
      · obtain ⟨h1, h2⟩ := ih (closeFile st e.dir)
        exact ⟨h1.trans (List.suffix_cons e rest), by simp [closeFile] at h2 ⊢; exact h2⟩
      · exact ⟨List.suffix_rfl, rfl⟩

theorem cleanupStack_sub (st : HSt) (s : SStack) :
    (cleanupStack st s).2 <+: s ∧ (cleanupStack st s).1.next = st.next := by
  unfold cleanupStack
  obtain ⟨h1, h2⟩ := dropEmptyRev_suffix st s.reverse
  constructor
  · have := List.reverse_prefix.2 h1
    simpa using this
  · simpa using h2

theorem PopPart_ok_entries {st : HSt} {part : Comp} {s : SStack} {st' : HSt}
    {s' : SStack} (h : PopPart st part s = .ok (st', s')) :
    ∀ e' ∈ s', ∃ e ∈ s, e'.dir = e.dir := by
  unfold PopPart at h
  cases hp : popPart part s with
  | error er =>
      rw [hp] at h
      cases er with
      | emptyStack =>
          simp only [Except.ok.injEq, Prod.mk.injEq] at h
          obtain ⟨h1, h2⟩ := h
          subst h2
          exact fun e' he' => ⟨e', he', rfl⟩
      | broken => simp at h
  | ok s2 =>
      rw [hp] at h
      have h2 : (cleanupStack st s2).2 = s' := congrArg Prod.snd (Except.ok.inj h)
      intro e' he'
      rw [← h2] at he'
      exact popPart_ok_entries hp e' ((cleanupStack_sub st s2).1.sublist.mem he')

theorem swapLink_ok_entries {st : HSt} {s : SStack} {part : Comp} {dir : FHandle}
    {rem target : Str} {st' : HSt} {s' : SStack}
    (h : swapLink st s part dir rem target = .ok (st', s')) :
    ∀ e' ∈ s', (∃ e ∈ s, e'.dir = e.dir) ∨ e'.dir.fpath = dir.fpath := by
  unfold swapLink at h
  have hpush : ∀ (st0 : HSt) (s0 : SStack),
      (∀ e' ∈ s0, (∃ e ∈ s, e'.dir = e.dir) ∨ e'.dir.fpath = dir.fpath) →
      pushStack st0 s0 dir rem target = (st', s') →
      ∀ e' ∈ s', (∃ e ∈ s, e'.dir = e.dir) ∨ e'.dir.fpath = dir.fpath := by
    intro st0 s0 hs0 hp e' he'
    simp only [pushStack, dupFile] at hp
    by_cases hparts : pathComps target = []
    · rw [if_pos hparts] at hp
      obtain ⟨h1, h2⟩ := Prod.mk.inj hp
      subst h2
      exact hs0 e' he'
    · rw [if_neg hparts] at hp
      obtain ⟨h1, h2⟩ := Prod.mk.inj hp
      subst h2
      rcases List.mem_append.1 he' with hm | hm
      · exact hs0 e' hm
      · obtain rfl := List.mem_singleton.1 hm
        exact Or.inr rfl
  cases hp : popPart part s with
  | error er =>
      rw [hp] at h
      cases er with
      | emptyStack =>
          exact hpush st s (fun e' he' => Or.inl ⟨e', he', rfl⟩) (Except.ok.inj h)
      | broken => simp at h
  | ok s2 =>
      rw [hp] at h
      exact hpush st s2
        (fun e' he' => Or.inl (popPart_ok_entries hp e' he'))
        (Except.ok.inj h)

/-! ## C1: the result always denotes a location inside the root subtree -/

theorem childPath_lexJoin (R cp : FPath) (part : Comp)
    (h : lexJoin cp part ≠ []) :
    childPath (R ++ cp) part = R ++ lexJoin cp part := by
  unfold childPath lexJoin at *
  by_cases h1 : part = ['.']
  · simp [h1]
  · by_cases h2 : part = ['.', '.']
    · have hcp : cp ≠ [] := by
        intro hc
        exact h (by simp [h1, h2, hc])
      simp only [h1, h2, if_false, if_true]
      exact List.dropLast_append_of_ne_nil R hcp
    · simp [h1, h2]

/-- The no-escape invariant: the current directory denotes exactly the root
path extended by the tracked logical path, and every parked stack handle
denotes a location under the root. -/
def InvRoot (R : FPath) (w : WSt) : Prop :=
  w.cur.fpath = R ++ w.cp ∧ ∀ e ∈ w.stack, R <+: e.dir.fpath

theorem step_invRoot (cfg : Cfg) (root : FHandle) (lr : FPath) (orig : Str)
    (w : WSt) (hP : InvRoot root.fpath w) :
    (∀ w', lookupStep cfg root lr orig w = .cont w' → InvRoot root.fpath w') ∧
    (∀ h r w', lookupStep cfg root lr orig w = .done h r w' →
      root.fpath <+: h.fpath) ∧
    (∀ e w', lookupStep cfg root lr orig w = .fail e w' → True) := by
  obtain ⟨hcur, hstk⟩ := hP
  have hchild : lexJoin w.cp (splitFirst w.rem).1 ≠ [] →
      childPath w.cur.fpath (splitFirst w.rem).1 =
        root.fpath ++ lexJoin w.cp (splitFirst w.rem).1 := by
    intro hne
    rw [hcur]
    exact childPath_lexJoin _ _ _ hne
  refine lookupStep_elim cfg root lr orig w (splitFirst w.rem).1 (splitFirst w.rem).2
    rfl _ rfl _ rfl
    (fun sr =>
      (∀ w', sr = .cont w' → InvRoot root.fpath w') ∧
      (∀ h r w', sr = .done h r w' → root.fpath <+: h.fpath) ∧
      (∀ e w', sr = .fail e w' → True))
    ?_ ?_ ?_ ?_ ?_ ?_ ?_ ?_ ?_ ?_ ?_ ?_ ?_ ?_ ?_ ?_
  -- skip
  · intro _
    refine ⟨fun w' hw' => ?_, by simp, by simp⟩
    cases hw'
    exact ⟨hcur, hstk⟩
  -- jump-to-root, PopPart error
  · intro er _ _ _
    exact ⟨by simp, by simp, fun _ _ _ => trivial⟩
  -- jump-to-root, ok
  · intro h1 s1 _ hj hPP
    refine ⟨fun w' hw' => ?_, by simp, by simp⟩
    cases hw'
    refine ⟨by simp [dupFile, hj], fun e' he' => ?_⟩
    obtain ⟨e, he, hde⟩ := PopPart_ok_entries hPP e' he'
    rw [hde]
    exact hstk e he
  -- not-found, dangling
  · intro e es _ _ _ hstack
    refine ⟨by simp, fun h r w' hw' => ?_, by simp⟩
    cases hw'
    exact hstk e (by rw [hstack]; exact List.mem_cons_self e es)
  -- not-found, plain
  · intro _ _ _ _
    refine ⟨by simp, fun h r w' hw' => ?_, by simp⟩
    cases hw'
    exact ⟨w.cp, hcur.symm⟩
  -- dir, PopPart error
  · intro er _ _ _ _
    exact ⟨by simp, by simp, fun _ _ _ => trivial⟩
  -- dir, normal descent
  · intro h3 s1 _ hj _ hPP _
    refine ⟨fun w' hw' => ?_, by simp, by simp⟩
    cases hw'
    refine ⟨by simpa using hchild hj, fun e' he' => ?_⟩
    obtain ⟨e, he, hde⟩ := PopPart_ok_entries hPP e' he'
    rw [hde]
    exact hstk e he
  -- dir, `..` with passing checks
  · intro h3 s1 _ hj _ hPP _ _
    refine ⟨fun w' hw' => ?_, by simp, by simp⟩
    cases hw'
    refine ⟨by simpa using hchild hj, fun e' he' => ?_⟩
    obtain ⟨e, he, hde⟩ := PopPart_ok_entries hPP e' he'
    rw [hde]
    exact hstk e he
  -- dir, `..` with failing checks
  · intro h3 s1 _ _ _ _ _ _
    exact ⟨by simp, by simp, fun _ _ _ => trivial⟩
  -- symlink over the limit
  · intro t _ _ _ _
    exact ⟨by simp, by simp, fun _ _ _ => trivial⟩
  -- symlink, SwapLink error
  · intro t er _ _ _ _ _
    exact ⟨by simp, by simp, fun _ _ _ => trivial⟩
  -- symlink, relative target
  · intro t h3 s1 _ _ _ _ hSW _
    refine ⟨fun w' hw' => ?_, by simp, by simp⟩
    cases hw'
    refine ⟨hcur, fun e' he' => ?_⟩
    rcases swapLink_ok_entries hSW e' he' with ⟨e, he, hde⟩ | hde
    · rw [hde]; exact hstk e he
    · rw [hde, hcur]; exact ⟨w.cp, rfl⟩
  -- symlink, absolute target
  · intro t h3 s1 _ _ _ _ hSW _
    refine ⟨fun w' hw' => ?_, by simp, by simp⟩
    cases hw'
    refine ⟨by simp [dupFile], fun e' he' => ?_⟩
    rcases swapLink_ok_entries hSW e' he' with ⟨e, he, hde⟩ | hde
    · rw [hde]; exact hstk e he
    · rw [hde, hcur]; exact ⟨w.cp, rfl⟩
  -- other, PopPart error
  · intro er _ _ _ _
    exact ⟨by simp, by simp, fun _ _ _ => trivial⟩
  -- other, dangling
  · intro h3 f rest _ _ _ hPP
    refine ⟨by simp, fun h r w' hw' => ?_, by simp⟩
    cases hw'
    obtain ⟨e, he, hde⟩ := PopPart_ok_entries hPP f (List.mem_cons_self f rest)
    rw [hde]
    exact hstk e he
  -- other, plain
  · intro h3 _ hj _ _
    refine ⟨by simp, fun h r w' hw' => ?_, by simp⟩
    cases hw'
    rw [hchild hj]
    exact ⟨lexJoin w.cp (splitFirst w.rem).1, rfl⟩

/-- C1: for every root handle and request path, if the walk returns a (full
or partial) result with nil error, the handle it returns denotes a location
lexically inside the root's subtree: the root's authoritative path is a
prefix of the result handle's authoritative path. -/
theorem partialLookup_no_escape (cfg : Cfg) (st0 : HSt) (root : FHandle)
    (p : Str) (fuel : Nat) (h : FHandle) (rm : Str) (w' : WSt)
    (hrun : partialLookupInRoot cfg st0 root p fuel = some (.inl (h, rm), w')) :
    root.fpath <+: h.fpath := by
  have hinv := lookupLoop_inv cfg root root.fpath p (InvRoot root.fpath)
    (fun res w' => ∀ h rm, res = .inl (h, rm) → root.fpath <+: h.fpath)
    (fun w hP hrem => by
      obtain ⟨hc, hd, hf⟩ := step_invRoot cfg root root.fpath p w hP
      exact ⟨hc, fun h r w' hs => fun h' rm' heq => by
          obtain ⟨h1, h2⟩ := Prod.mk.inj (Sum.inl.inj heq)
          subst h1 h2
          exact hd h r w' hs,
        fun e w' hs => fun h' rm' heq => by simp at heq⟩)
    (fun w hP hrem => fun h' rm' heq => by
      obtain ⟨h1, h2⟩ := Prod.mk.inj (Sum.inl.inj heq)
      subst h1
      exact ⟨w.cp, hP.1.symm⟩)
  exact hinv fuel _ (.inl (h, rm)) w' ⟨by simp [dupFile], by simp⟩ hrun h rm rfl

/-! ## Concrete filesystems for witnesses and counterexamples -/

/-- The caller's root handle, denoting `/r`. -/
def exRoot : FHandle := ⟨0, [['r']]⟩

/-- Initial handle table: only the root handle is open. -/
def exHSt : HSt := ⟨1, {0}⟩

/-- The race-check oracle of an unmolested filesystem. -/
def tOracle : Nat → Bool := fun _ => true

/-- `/r` with `/r/a -> "b/c"`, `/r/b` a directory, `/r/b/c` missing. -/
def fsDangling : FS := fun p =>
  if p = [] then some .dir
  else if p = [['r']] then some .dir
  else if p = [['r'], ['a']] then some (.symlink ['b', '/', 'c'])
  else if p = [['r'], ['b']] then some .dir
  else none

/-- `/r` with `/r/a -> "b"`, `/r/b -> "c"`, `/r/c` a regular file. -/
def fsTail : FS := fun p =>
  if p = [] then some .dir
  else if p = [['r']] then some .dir
  else if p = [['r'], ['a']] then some (.symlink ['b'])
  else if p = [['r'], ['b']] then some (.symlink ['c'])
  else if p = [['r'], ['c']] then some .other
  else none

/-- `/r` with `/r/a -> "c//"` and `/r/c` a regular file. -/
def fsSlash : FS := fun p =>
  if p = [] then some .dir
  else if p = [['r']] then some .dir
  else if p = [['r'], ['a']] then some (.symlink ['c', '/', '/'])
  else if p = [['r'], ['c']] then some .other
  else none

/-- `/r` with `/r/a -> "b"`, `/r/b -> "/"`, `/r/x` a regular file. -/
def fsLeak : FS := fun p =>
  if p = [] then some .dir
  else if p = [['r']] then some .dir
  else if p = [['r'], ['a']] then some (.symlink ['b'])
  else if p = [['r'], ['b']] then some (.symlink ['/'])
  else if p = [['r'], ['x']] then some .other
  else none

/-- `/r` with directories `/r/d` and `/r/d/e`. -/
def fsDirs : FS := fun p =>
  if p = [] then some .dir
  else if p = [['r']] then some .dir
  else if p = [['r'], ['d']] then some .dir
  else if p = [['r'], ['d'], ['e']] then some .dir
  else none

/-- `/r` with the self-referential symlink `/r/a -> "a"`. -/
def fsLoop : FS := fun p =>
  if p = [] then some .dir
  else if p = [['r']] then some .dir
  else if p = [['r'], ['a']] then some (.symlink ['a'])
  else none

/-- Witness for `partialLookup_no_escape`: the tail-chain lookup of
`"a/extra"` under `/r` ends at `/r/c`, which is inside the root subtree. -/
theorem partialLookup_no_escape_witness :
    partialLookupInRoot ⟨fsTail, 255, tOracle⟩ exHSt exRoot
        ['a', '/', 'e', 'x', 't', 'r', 'a'] 30 =
      some (.inl (⟨6, [['r'], ['c']]⟩, ['e', 'x', 't', 'r', 'a']),
        ⟨⟨7, 6 ::ₘ {0}⟩, [], 2, ⟨1, [['r']]⟩, [], ['e', 'x', 't', 'r', 'a'], 0, []⟩) ∧
    exRoot.fpath <+: [['r'], ['c']] :=
  ⟨by decide,
   partialLookup_no_escape ⟨fsTail, 255, tOracle⟩ exHSt exRoot
     ['a', '/', 'e', 'x', 't', 'r', 'a'] 30 ⟨6, [['r'], ['c']]⟩
     ['e', 'x', 't', 'r', 'a']
     ⟨⟨7, 6 ::ₘ {0}⟩, [], 2, ⟨1, [['r']]⟩, [], ['e', 'x', 't', 'r', 'a'], 0, []⟩
     (by decide)⟩

/-- Witness for `notFound_dangling_returns_front`, at the walk state the
`fsDangling` lookup of `"a"` reaches just before opening the missing
`"c"`, together with the end-to-end run: resolving `"a"` returns a handle
denoting `/r` with remaining path `"a"` — not `/r/b` with remaining
`"c"`. -/
theorem notFound_dangling_returns_front_witness :
    (∃ w', lookupStep ⟨fsDangling, 255, tOracle⟩ exRoot [['r']] ['a']
        ⟨⟨5, 4 ::ₘ 3 ::ₘ {0}⟩, [⟨⟨3, [['r']]⟩, ['a'], [['c']]⟩], 1,
         ⟨4, [['r'], ['b']]⟩, [['b']], ['c'], 0, []⟩ =
      .done (⟨3, [['r']]⟩ : FHandle) ['a'] w') ∧
    partialLookupInRoot ⟨fsDangling, 255, tOracle⟩ exHSt exRoot ['a'] 20 =
      some (.inl (⟨3, [['r']]⟩, ['a']),
        ⟨⟨5, 3 ::ₘ {0}⟩, [], 1, ⟨4, [['r'], ['b']]⟩, [['b']], [], 0,
         [.descend ['b']]⟩) :=
  ⟨(notFound_dangling_returns_front ⟨fsDangling, 255, tOracle⟩ exRoot [['r']] ['a']
      ⟨⟨5, 4 ::ₘ 3 ::ₘ {0}⟩, [⟨⟨3, [['r']]⟩, ['a'], [['c']]⟩], 1,
       ⟨4, [['r'], ['b']]⟩, [['b']], ['c'], 0, []⟩
      ⟨⟨3, [['r']]⟩, ['a'], [['c']]⟩ [] ['c'] []
      (by decide) (by decide) (by decide) (by decide) (by decide)).1,
   by decide⟩

/-- Witness for `swapLink_tail_chain`, at the stack state the `fsTail`
lookup of `"a/extra"` reaches when the inner symlink `b -> c` is hit,
together with the end-to-end run: resolving `"a/extra"` returns a handle
to `/r/c` with remaining path `"extra"`. -/
theorem swapLink_tail_chain_witness :
    swapLink ⟨4, 3 ::ₘ {0}⟩
        [⟨⟨2, [['r']]⟩, ['a', '/', 'e', 'x', 't', 'r', 'a'], [['b']]⟩] ['b']
        ⟨1, [['r']]⟩ ['b', '/', 'e', 'x', 't', 'r', 'a'] ['c'] =
      .ok (⟨5, 4 ::ₘ 3 ::ₘ {0}⟩,
        ([⟨⟨2, [['r']]⟩, ['a', '/', 'e', 'x', 't', 'r', 'a'], []⟩] ++
          [⟨⟨4, [['r']]⟩, ['b', '/', 'e', 'x', 't', 'r', 'a'], [['b']].tail.cons ['c']⟩])) ∧
    partialLookupInRoot ⟨fsTail, 255, tOracle⟩ exHSt exRoot
        ['a', '/', 'e', 'x', 't', 'r', 'a'] 30 =
      some (.inl (⟨6, [['r'], ['c']]⟩, ['e', 'x', 't', 'r', 'a']),
        ⟨⟨7, 6 ::ₘ {0}⟩, [], 2, ⟨1, [['r']]⟩, [], ['e', 'x', 't', 'r', 'a'], 0, []⟩) :=
  ⟨swapLink_tail_chain ⟨4, 3 ::ₘ {0}⟩ []
     ⟨⟨2, [['r']]⟩, ['a', '/', 'e', 'x', 't', 'r', 'a'], [['b']]⟩ ['b']
     ⟨1, [['r']]⟩ ['b', '/', 'e', 'x', 't', 'r', 'a'] ['c'] (by decide) (by decide),
   by decide⟩

/-! ## C4: the ancestry race check fires exactly after `..` transitions -/

/-- A well-placed event trace: every race check immediately follows a
directory transition whose component is `..`, and every `..` transition is
immediately followed by a race check. -/
def wellPlaced : List Event → Bool
  | [] => true
  | .raceCheck :: _ => false
  | [.descend p] => if p = ['.', '.'] then false else true
  | .descend p :: .raceCheck :: r =>
      if p = ['.', '.'] then wellPlaced r else false
  | .descend p :: .descend q :: r =>
      if p = ['.', '.'] then false else wellPlaced (.descend q :: r)

theorem wellPlaced_append : ∀ (es fs : List Event), wellPlaced es = true →
    wellPlaced fs = true → wellPlaced (es ++ fs) = true
  | [], _, _, hf => hf
  | .raceCheck :: _, _, h, _ => by simp [wellPlaced] at h
  | [.descend p], fs, h, hf => by
      have hp : p ≠ ['.', '.'] := by
        intro hp
        simp [wellPlaced, hp] at h
      cases fs with
      | nil => simp [wellPlaced, hp]
      | cons f fs2 =>
          cases f with
          | raceCheck => simp [wellPlaced] at hf
          | descend q =>
              simp only [List.cons_append, List.nil_append, wellPlaced, if_neg hp]
              exact hf
  | .descend p :: .raceCheck :: r, fs, h, hf => by
      have hp : p = ['.', '.'] := by
        by_contra hp
        simp [wellPlaced, hp] at h
      rw [wellPlaced, if_pos hp] at h
      have := wellPlaced_append r fs h hf
      simp only [List.cons_append, wellPlaced, if_pos hp]
      exact this
  | .descend p :: .descend q :: r, fs, h, hf => by
      have hp : p ≠ ['.', '.'] := by
        intro hp
        simp [wellPlaced, hp] at h
      rw [wellPlaced, if_neg hp] at h
      have := wellPlaced_append (.descend q :: r) fs h hf
      simp only [List.cons_append] at this ⊢
      rw [wellPlaced, if_neg hp]
      exact this

/-- The events-and-checks invariant of the walk. -/
def InvEv (cfg : Cfg) (w : WSt) : Prop :=
  wellPlaced w.events = true ∧ ∀ n, n < w.checksDone → cfg.check n = true

theorem step_invEv (cfg : Cfg) (root : FHandle) (lr : FPath) (orig : Str)
    (w : WSt) (hP : InvEv cfg w) :
    (∀ w', lookupStep cfg root lr orig w = .cont w' → InvEv cfg w') ∧
    (∀ h r w', lookupStep cfg root lr orig w = .done h r w' →
      wellPlaced w'.events = true ∧ ∀ n, n < w'.checksDone → cfg.check n = true) ∧
    (∀ e w', lookupStep cfg root lr orig w = .fail e w' →
      wellPlaced w'.events = true) := by
  obtain ⟨hwp, hck⟩ := hP
  refine lookupStep_elim cfg root lr orig w (splitFirst w.rem).1 (splitFirst w.rem).2
    rfl _ rfl _ rfl
    (fun sr =>
      (∀ w', sr = .cont w' → InvEv cfg w') ∧
      (∀ h r w', sr = .done h r w' →
        wellPlaced w'.events = true ∧ ∀ n, n < w'.checksDone → cfg.check n = true) ∧
      (∀ e w', sr = .fail e w' → wellPlaced w'.events = true))
    ?_ ?_ ?_ ?_ ?_ ?_ ?_ ?_ ?_ ?_ ?_ ?_ ?_ ?_ ?_ ?_
  · intro _
    exact ⟨fun w' hw' => by cases hw'; exact ⟨hwp, hck⟩, by simp, by simp⟩
  · intro er _ _ _
    exact ⟨by simp, by simp, fun e w' hw' => by cases hw'; exact hwp⟩
  · intro h1 s1 _ _ _
    exact ⟨fun w' hw' => by cases hw'; exact ⟨hwp, hck⟩, by simp, by simp⟩
  · intro e es _ _ _ _
    exact ⟨by simp, fun h r w' hw' => by cases hw'; exact ⟨hwp, hck⟩, by simp⟩
  · intro _ _ _ _
    exact ⟨by simp, fun h r w' hw' => by cases hw'; exact ⟨hwp, hck⟩, by simp⟩
  · intro er _ _ _ _
    exact ⟨by simp, by simp, fun e w' hw' => by cases hw'; exact hwp⟩
  · intro h3 s1 _ _ _ _ hdd
    refine ⟨fun w' hw' => ?_, by simp, by simp⟩
    cases hw'
    refine ⟨?_, hck⟩
    exact wellPlaced_append w.events [.descend (splitFirst w.rem).1] hwp
      (by simp [wellPlaced, hdd])
  · intro h3 s1 _ _ _ _ hdd hchk
    refine ⟨fun w' hw' => ?_, by simp, by simp⟩
    cases hw'
    constructor
    · rw [List.append_assoc]
      exact wellPlaced_append w.events
        ([.descend (splitFirst w.rem).1] ++ [.raceCheck]) hwp
        (by simp [wellPlaced, hdd])
    · intro n hn
      have hn2 : n < w.checksDone + 2 := hn
      rcases Nat.lt_or_ge n w.checksDone with h | h
      · exact hck n h
      · have : n = w.checksDone ∨ n = w.checksDone + 1 := by omega
        rcases this with rfl | rfl
        · exact hchk.1.2
        · exact hchk.2.2
  · intro h3 s1 _ _ _ _ hdd _
    refine ⟨by simp, by simp, fun e w' hw' => ?_⟩
    cases hw'
    rw [List.append_assoc]
    exact wellPlaced_append w.events
      ([.descend (splitFirst w.rem).1] ++ [.raceCheck]) hwp
      (by simp [wellPlaced, hdd])
  · intro t _ _ _ _
    exact ⟨by simp, by simp, fun e w' hw' => by cases hw'; exact hwp⟩
  · intro t er _ _ _ _ _
    exact ⟨by simp, by simp, fun e w' hw' => by cases hw'; exact hwp⟩
  · intro t h3 s1 _ _ _ _ _ _
    exact ⟨fun w' hw' => by cases hw'; exact ⟨hwp, hck⟩, by simp, by simp⟩
  · intro t h3 s1 _ _ _ _ _ _
    exact ⟨fun w' hw' => by cases hw'; exact ⟨hwp, hck⟩, by simp, by simp⟩
  · intro er _ _ _ _
    exact ⟨by simp, by simp, fun e w' hw' => by cases hw'; exact hwp⟩
  · intro h3 f rest _ _ _ _
    exact ⟨by simp, fun h r w' hw' => by cases hw'; exact ⟨hwp, hck⟩, by simp⟩
  · intro h3 _ _ _ _
    exact ⟨by simp, fun h r w' hw' => by cases hw'; exact ⟨hwp, hck⟩, by simp⟩

/-- C4: in every terminating run the final event trace is well-placed — the
ancestry race check is performed immediately after every directory
transition whose component is `..` and never after a forward descent — and
a successful (nil-error) run implies every authoritative comparison the
walk consumed reported a match; a mismatch instead aborts the walk (with
the attack-shaped error, as `lookupStep` returns on a failed check). -/
theorem raceCheck_placement (cfg : Cfg) (st0 : HSt) (root : FHandle)
    (p : Str) (fuel : Nat) (res : LRes) (w' : WSt)
    (hrun : partialLookupInRoot cfg st0 root p fuel = some (res, w')) :
    wellPlaced w'.events = true ∧
    (∀ h rm, res = .inl (h, rm) → ∀ n, n < w'.checksDone → cfg.check n = true) := by
  have hinv := lookupLoop_inv cfg root root.fpath p (InvEv cfg)
    (fun res w' => wellPlaced w'.events = true ∧
      (∀ h rm, res = .inl (h, rm) → ∀ n, n < w'.checksDone → cfg.check n = true))
    (fun w hP hrem => by
      obtain ⟨hc, hd, hf⟩ := step_invEv cfg root root.fpath p w hP
      refine ⟨hc, fun h r w' hs => ⟨(hd h r w' hs).1, fun h' rm' heq => ?_⟩,
        fun e w' hs => ⟨hf e w' hs, fun h' rm' heq => by simp at heq⟩⟩
      exact (hd h r w' hs).2)
    (fun w hP hrem => ⟨hP.1, fun h' rm' heq => hP.2⟩)
  exact hinv fuel
    ⟨⟨st0.next + 1, st0.next ::ₘ st0.opened⟩, [], 0, ⟨st0.next, root.fpath⟩, [],
      p, 0, []⟩ res w'
    ⟨rfl, fun n hn => absurd hn (Nat.not_lt_zero n)⟩ hrun

/-- Witness for `raceCheck_placement`: resolving `"d/e/.."` under `/r`
descends twice without a check and checks exactly once, right after the
`..` transition. -/
theorem raceCheck_placement_witness :
    partialLookupInRoot ⟨fsDirs, 255, tOracle⟩ exHSt exRoot
        ['d', '/', 'e', '/', '.', '.'] 30 =
      some (.inl (⟨4, [['r'], ['d']]⟩, []),
        ⟨⟨5, 4 ::ₘ {0}⟩, [], 0, ⟨4, [['r'], ['d']]⟩, [['d']], [], 2,
         [.descend ['d'], .descend ['e'], .descend ['.', '.'], .raceCheck]⟩) ∧
    wellPlaced [.descend ['d'], .descend ['e'], .descend ['.', '.'], .raceCheck] = true ∧
    (∀ h rm, (.inl (⟨4, [['r'], ['d']]⟩, []) : LRes) = .inl (h, rm) →
      ∀ n, n < (2 : Nat) → tOracle n = true) :=
  ⟨by decide,
   (raceCheck_placement ⟨fsDirs, 255, tOracle⟩ exHSt exRoot
     ['d', '/', 'e', '/', '.', '.'] 30 (.inl (⟨4, [['r'], ['d']]⟩, []))
     ⟨⟨5, 4 ::ₘ {0}⟩, [], 0, ⟨4, [['r'], ['d']]⟩, [['d']], [], 2,
      [.descend ['d'], .descend ['e'], .descend ['.', '.'], .raceCheck]⟩
     (by decide)).1,
   (raceCheck_placement ⟨fsDirs, 255, tOracle⟩ exHSt exRoot
     ['d', '/', 'e', '/', '.', '.'] 30 (.inl (⟨4, [['r'], ['d']]⟩, []))
     ⟨⟨5, 4 ::ₘ {0}⟩, [], 0, ⟨4, [['r'], ['d']]⟩, [['d']], [], 2,
      [.descend ['d'], .descend ['e'], .descend ['.', '.'], .raceCheck]⟩
     (by decide)).2⟩

/-! ## Handle accounting for the stack operations -/

theorem cons_add_swap (a : Nat) (X Y : Multiset Nat) :
    a ::ₘ (X + Y) = X + (a ::ₘ Y) := by
  rw [← Multiset.singleton_add, ← Multiset.singleton_add, add_left_comm]

theorem coe_cons_add (a : Nat) (l : List Nat) (M : Multiset Nat) :
    ((a :: l : List Nat) : Multiset Nat) + M = a ::ₘ ((l : Multiset Nat) + M) := by
  rw [← Multiset.cons_coe, Multiset.cons_add]

theorem coe_append_singleton_add (x : Nat) (ids : List Nat) (M : Multiset Nat) :
    ((ids ++ [x] : List Nat) : Multiset Nat) + M = x ::ₘ ((ids : Multiset Nat) + M) := by
  have h1 : ((ids ++ [x] : List Nat) : Multiset Nat) = x ::ₘ (ids : List Nat) := by
    simp
  rw [h1, Multiset.cons_add]

theorem open_push_form (cid x : Nat) (ids : List Nat) (M : Multiset Nat) :
    x ::ₘ (cid ::ₘ ((ids : Multiset Nat) + M)) =
      cid ::ₘ (((ids ++ [x] : List Nat) : Multiset Nat) + M) := by
  rw [coe_append_singleton_add]
  exact Multiset.cons_swap x cid _

theorem cons_cons_erase (a b c : Nat) (X : Multiset Nat) :
    (a ::ₘ b ::ₘ c ::ₘ X).erase c = a ::ₘ b ::ₘ X := by
  rw [Multiset.cons_swap b c, Multiset.cons_swap a c, Multiset.erase_cons_head]

theorem closeAllEntries_spec : ∀ (s : SStack) (st : HSt) (M : Multiset Nat),
    st.opened = (stackIds s : Multiset Nat) + M →
    (closeAllEntries st s).opened = M ∧ (closeAllEntries st s).next = st.next
  | [], st, M, h => by
      simpa [closeAllEntries, stackIds] using h
  | e :: rest, st, M, h => by
      have h2 : (closeFile st e.dir).opened = (stackIds rest : Multiset Nat) + M := by
        simp only [closeFile]
        rw [h]
        have h4 : ((stackIds (e :: rest) : List Nat) : Multiset Nat) + M =
            e.dir.id ::ₘ ((stackIds rest : Multiset Nat) + M) :=
          coe_cons_add e.dir.id (stackIds rest) M
        rw [h4, Multiset.erase_cons_head]
      have h3 := closeAllEntries_spec rest (closeFile st e.dir) M h2
      refine ⟨?_, ?_⟩
      · simpa [closeAllEntries] using h3.1
      · have : (closeFile st e.dir).next = st.next := rfl
        simpa [closeAllEntries, this] using h3.2

theorem dropEmptyRev_spec : ∀ (l : SStack) (st : HSt) (M : Multiset Nat),
    st.opened = (stackIds l : Multiset Nat) + M →
    (dropEmptyRev st l).1.opened =
      (stackIds (dropEmptyRev st l).2 : Multiset Nat) + M
  | [], st, M, h => by simpa [dropEmptyRev] using h
  | e :: rest, st, M, h => by
      by_cases hu : e.unwalked = []
      · have h2 : (closeFile st e.dir).opened = (stackIds rest : Multiset Nat) + M := by
          simp only [closeFile]
          rw [h]
          have h4 : ((stackIds (e :: rest) : List Nat) : Multiset Nat) + M =
              e.dir.id ::ₘ ((stackIds rest : Multiset Nat) + M) :=
            coe_cons_add e.dir.id (stackIds rest) M
          rw [h4, Multiset.erase_cons_head]
        have h3 := dropEmptyRev_spec rest (closeFile st e.dir) M h2
        simpa [dropEmptyRev, hu] using h3
      · simpa [dropEmptyRev, hu] using h

theorem stackIds_coe_reverse (s : SStack) :
    ((stackIds s.reverse : List Nat) : Multiset Nat) = (stackIds s : List Nat) := by
  simp [stackIds]

theorem cleanupStack_spec (st : HSt) (s : SStack) (M : Multiset Nat)
    (h : st.opened = (stackIds s : Multiset Nat) + M) :
    (cleanupStack st s).1.opened =
      (stackIds (cleanupStack st s).2 : Multiset Nat) + M := by
  unfold cleanupStack
  have h2 : st.opened = (stackIds s.reverse : Multiset Nat) + M := by
    rw [stackIds_coe_reverse]; exact h
  have h3 := dropEmptyRev_spec s.reverse st M h2
  simpa [stackIds] using h3

theorem PopPart_ok_spec {st : HSt} {part : Comp} {s : SStack} {st' : HSt}
    {s' : SStack} (h : PopPart st part s = .ok (st', s')) :
    st'.next = st.next ∧ List.Sublist (stackIds s') (stackIds s) ∧
    ∀ M, st.opened = (stackIds s : Multiset Nat) + M →
      st'.opened = (stackIds s' : Multiset Nat) + M := by
  unfold PopPart at h
  cases hp : popPart part s with
  | error er =>
      rw [hp] at h
      cases er with
      | emptyStack =>
          simp only [Except.ok.injEq, Prod.mk.injEq] at h
          obtain ⟨h1, h2⟩ := h
          subst h1 h2
          exact ⟨rfl, List.Sublist.refl _, fun M hM => hM⟩
      | broken => simp at h
  | ok s2 =>
      rw [hp] at h
      have h1 : (cleanupStack st s2).1 = st' := congrArg Prod.fst (Except.ok.inj h)
      have h2 : (cleanupStack st s2).2 = s' := congrArg Prod.snd (Except.ok.inj h)
      have hids := popPart_ok_ids hp
      refine ⟨?_, ?_, ?_⟩
      · rw [← h1]; exact (cleanupStack_sub st s2).2
      · rw [← h2, ← hids]
        exact ((cleanupStack_sub st s2).1.map (fun e => e.dir.id)).sublist
      · intro M hM
        rw [← h1, ← h2]
        exact cleanupStack_spec st s2 M (by rw [hids]; exact hM)

theorem swapLink_ok_spec {st : HSt} {s : SStack} {part : Comp} {dir : FHandle}
    {rem target : Str} {st' : HSt} {s' : SStack}
    (h : swapLink st s part dir rem target = .ok (st', s')) :
    (st' = st ∧ stackIds s' = stackIds s) ∨
    (st'.next = st.next + 1 ∧ st'.opened = st.next ::ₘ st.opened ∧
      stackIds s' = stackIds s ++ [st.next]) := by
  unfold swapLink at h
  have hpush : ∀ (s0 : SStack), stackIds s0 = stackIds s →
      pushStack st s0 dir rem target = (st', s') →
      (st' = st ∧ stackIds s' = stackIds s) ∨
      (st'.next = st.next + 1 ∧ st'.opened = st.next ::ₘ st.opened ∧
        stackIds s' = stackIds s ++ [st.next]) := by
    intro s0 hs0 hp
    simp only [pushStack, dupFile] at hp
    by_cases hparts : pathComps target = []
    · rw [if_pos hparts] at hp
      obtain ⟨h1, h2⟩ := Prod.mk.inj hp
      exact Or.inl ⟨h1.symm, by rw [← h2, hs0]⟩
    · rw [if_neg hparts] at hp
      obtain ⟨h1, h2⟩ := Prod.mk.inj hp
      refine Or.inr ⟨by rw [← h1], by rw [← h1], ?_⟩
      rw [← h2]
      have h5 : stackIds (s0 ++
          [⟨⟨st.next, dir.fpath⟩, rem, pathComps target⟩]) =
          stackIds s0 ++ [st.next] := by
        simp [stackIds]
      rw [h5, hs0]
  cases hp : popPart part s with
  | error er =>
      rw [hp] at h
      cases er with
      | emptyStack => exact hpush s rfl (Except.ok.inj h)
      | broken => simp at h
  | ok s2 =>
      rw [hp] at h
      exact hpush s2 (popPart_ok_ids hp) (Except.ok.inj h)

theorem finishOk_opened (w : WSt) (X : Multiset Nat)
    (hX : w.hst.opened = (stackIds w.stack : Multiset Nat) + X) :
    (finishOk w).hst.opened = X ∧ (finishOk w).hst.next = w.hst.next := by
  have := closeAllEntries_spec w.stack w.hst X hX
  exact ⟨this.1, this.2⟩

theorem finishFail_opened (w : WSt) (X : Multiset Nat)
    (hX : w.hst.opened = (stackIds w.stack : Multiset Nat) + X) :
    (finishFail w).hst.opened = X.erase w.cur.id ∧
    (finishFail w).hst.next = w.hst.next := by
  have := closeAllEntries_spec w.stack w.hst X hX
  constructor
  · show (closeFile (closeAllEntries w.hst w.stack) w.cur).opened = X.erase w.cur.id
    rw [closeFile, this.1]
  · exact this.2

theorem closeAll_close_opened (st : HSt) (s : SStack) (c : FHandle)
    (X : Multiset Nat) (hX : st.opened = (stackIds s : Multiset Nat) + X) :
    (closeFile (closeAllEntries st s) c).opened = X.erase c.id := by
  have h := closeAllEntries_spec s st X hX
  show ((closeAllEntries st s).opened).erase c.id = X.erase c.id
  rw [h.1]

/-! ## The handle-ownership invariant of the walk -/

/-- Handle accounting: the open descriptors are exactly the caller's
(`st0.opened`), the current directory, and one per parked stack entry; all
walk-owned descriptors are fresh (at least `st0.next`), pairwise distinct
and below the allocation cursor. -/
def InvH (st0 : HSt) (w : WSt) : Prop :=
  w.hst.opened = w.cur.id ::ₘ ((stackIds w.stack : Multiset Nat) + st0.opened) ∧
  (∀ i ∈ st0.opened, i < st0.next) ∧
  st0.next ≤ w.hst.next ∧
  (w.cur.id :: stackIds w.stack).Nodup ∧
  (∀ i ∈ w.cur.id :: stackIds w.stack, st0.next ≤ i ∧ i < w.hst.next)

theorem step_invH (cfg : Cfg) (root : FHandle) (lr : FPath) (orig : Str)
    (w : WSt) (st0 : HSt) (hP : InvH st0 w) :
    (∀ w', lookupStep cfg root lr orig w = .cont w' → InvH st0 w') ∧
    (∀ h r w', lookupStep cfg root lr orig w = .done h r w' →
      w'.hst.opened = h.id ::ₘ st0.opened ∧ st0.next ≤ h.id) ∧
    (∀ e w', lookupStep cfg root lr orig w = .fail e w' →
      w'.hst.opened = st0.opened ∨
        (e = .broken ∧ ∃ i, st0.next ≤ i ∧ w'.hst.opened = i ::ₘ st0.opened)) := by
  obtain ⟨hop, hM, hle, hnd, hbb⟩ := hP
  have hcidB := hbb w.cur.id (List.mem_cons_self _ _)
  have hcidnotids : w.cur.id ∉ stackIds w.stack := (List.nodup_cons.1 hnd).1
  have hidsnd : (stackIds w.stack).Nodup := (List.nodup_cons.1 hnd).2
  have hidB : ∀ i ∈ stackIds w.stack, st0.next ≤ i ∧ i < w.hst.next :=
    fun i hi => hbb i (List.mem_cons_of_mem _ hi)
  have hcidnotM : w.cur.id ∉ st0.opened := fun hm => by
    have := hM _ hm; omega
  have hop' : w.hst.opened =
      (stackIds w.stack : Multiset Nat) + (w.cur.id ::ₘ st0.opened) := by
    rw [hop, cons_add_swap]
  -- opened after a successful `openatFile` followed by closing `currentDir`.
  have hopen_close_cur :
      ((⟨w.hst.next + 1, w.hst.next ::ₘ w.hst.opened⟩ : HSt).opened).erase w.cur.id =
        w.hst.next ::ₘ ((stackIds w.stack : Multiset Nat) + st0.opened) := by
    show (w.hst.next ::ₘ w.hst.opened).erase w.cur.id = _
    rw [hop, Multiset.cons_swap, Multiset.erase_cons_head]
  -- opened after a successful `openatFile` followed by closing the new handle.
  have hopen_close_nd :
      ((⟨w.hst.next + 1, w.hst.next ::ₘ w.hst.opened⟩ : HSt).opened).erase w.hst.next =
        w.cur.id ::ₘ ((stackIds w.stack : Multiset Nat) + st0.opened) := by
    show (w.hst.next ::ₘ w.hst.opened).erase w.hst.next = _
    rw [Multiset.erase_cons_head, hop]
  refine lookupStep_elim cfg root lr orig w (splitFirst w.rem).1 (splitFirst w.rem).2
    rfl _ rfl _ rfl
    (fun sr =>
      (∀ w', sr = .cont w' → InvH st0 w') ∧
      (∀ h r w', sr = .done h r w' →
        w'.hst.opened = h.id ::ₘ st0.opened ∧ st0.next ≤ h.id) ∧
      (∀ e w', sr = .fail e w' →
        w'.hst.opened = st0.opened ∨
          (e = .broken ∧ ∃ i, st0.next ≤ i ∧ w'.hst.opened = i ::ₘ st0.opened)))
    ?_ ?_ ?_ ?_ ?_ ?_ ?_ ?_ ?_ ?_ ?_ ?_ ?_ ?_ ?_ ?_
  -- skip
  · intro _
    exact ⟨fun w' hw' => by cases hw'; exact ⟨hop, hM, hle, hnd, hbb⟩, by simp, by simp⟩
  -- jump-to-root, PopPart error: everything released
  · intro er _ _ _
    refine ⟨by simp, by simp, fun e w' hw' => ?_⟩
    cases hw'
    left
    have := (finishFail_opened { w with rem := (splitFirst w.rem).2 }
      (w.cur.id ::ₘ st0.opened) hop').1
    rw [this, Multiset.erase_cons_head]
  -- jump-to-root, ok
  · intro h1 s1 _ _ hPP
    refine ⟨fun w' hw' => ?_, by simp, by simp⟩
    cases hw'
    obtain ⟨hn1, hsub, hopa⟩ := PopPart_ok_spec hPP
    have hn1' : h1.next = w.hst.next := hn1
    have h1op := hopa (w.cur.id ::ₘ st0.opened) hop'
    have hsubB : ∀ i ∈ stackIds s1, st0.next ≤ i ∧ i < w.hst.next :=
      fun i hi => hidB i (hsub.mem hi)
    refine ⟨?_, hM, ?_, ?_, ?_⟩
    · show (h1.next ::ₘ h1.opened).erase w.cur.id =
        h1.next ::ₘ ((stackIds s1 : Multiset Nat) + st0.opened)
      rw [h1op, ← cons_add_swap, Multiset.cons_swap, Multiset.erase_cons_head]
    · show st0.next ≤ h1.next + 1
      omega
    · refine List.nodup_cons.2 ⟨fun hmem => ?_, hsub.nodup hidsnd⟩
      have hmem' : h1.next ∈ stackIds s1 := hmem
      have := hsubB _ hmem'
      omega
    · intro i hi
      have hi' : i ∈ h1.next :: stackIds s1 := hi
      show st0.next ≤ i ∧ i < h1.next + 1
      rcases List.mem_cons.1 hi' with rfl | hi2
      · omega
      · have := hsubB i hi2
        omega
  -- not-found, dangling: return the front entry
  · intro e es _ _ _ hstack
    refine ⟨by simp, fun h r w' hw' => ?_, by simp⟩
    cases hw'
    have hids : stackIds w.stack = e.dir.id :: stackIds es := by
      rw [hstack]; rfl
    have hinner : (closeFile w.hst w.cur).opened =
        (stackIds es : Multiset Nat) + (e.dir.id ::ₘ st0.opened) := by
      show (w.hst.opened).erase w.cur.id = _
      rw [hop, Multiset.erase_cons_head, hids, coe_cons_add, cons_add_swap]
    have := (finishOk_opened
      { w with hst := closeFile w.hst w.cur, stack := es, rem := (splitFirst w.rem).2 }
      (e.dir.id ::ₘ st0.opened) hinner).1
    refine ⟨this, ?_⟩
    exact (hidB e.dir.id (by rw [hids]; exact List.mem_cons_self _ _)).1
  -- not-found, plain: return the current directory
  · intro _ _ _ hstack
    refine ⟨by simp, fun h r w' hw' => ?_, by simp⟩
    cases hw'
    have hids : stackIds w.stack = [] := by rw [hstack]; rfl
    have hinner : w.hst.opened =
        (stackIds w.stack : Multiset Nat) + (w.cur.id ::ₘ st0.opened) := hop'
    have := (finishOk_opened { w with rem := (splitFirst w.rem).2 }
      (w.cur.id ::ₘ st0.opened) hinner).1
    exact ⟨this, hcidB.1⟩
  -- dir, PopPart error: everything (including the new handle) released
  · intro er _ _ _ _
    refine ⟨by simp, by simp, fun e w' hw' => ?_⟩
    cases hw'
    left
    have hinner : (closeFile (⟨w.hst.next + 1, w.hst.next ::ₘ w.hst.opened⟩ : HSt)
        w.cur).opened =
        (stackIds w.stack : Multiset Nat) + (w.hst.next ::ₘ st0.opened) := by
      show ((⟨w.hst.next + 1, w.hst.next ::ₘ w.hst.opened⟩ : HSt).opened).erase
        w.cur.id = _
      rw [hopen_close_cur, cons_add_swap]
    exact (closeAll_close_opened _ w.stack
        ⟨w.hst.next, childPath w.cur.fpath (splitFirst w.rem).1⟩
        (w.hst.next ::ₘ st0.opened) hinner).trans
      (by rw [Multiset.erase_cons_head])
  -- dir, normal descent
  · intro h3 s1 _ _ _ hPP _
    refine ⟨fun w' hw' => ?_, by simp, by simp⟩
    cases hw'
    obtain ⟨hn1, hsub, hopa⟩ := PopPart_ok_spec hPP
    have hinner : (closeFile (⟨w.hst.next + 1, w.hst.next ::ₘ w.hst.opened⟩ : HSt)
        w.cur).opened =
        (stackIds w.stack : Multiset Nat) + (w.hst.next ::ₘ st0.opened) := by
      show ((⟨w.hst.next + 1, w.hst.next ::ₘ w.hst.opened⟩ : HSt).opened).erase
        w.cur.id = _
      rw [hopen_close_cur, cons_add_swap]
    have h3op := hopa (w.hst.next ::ₘ st0.opened) hinner
    have hn1' : h3.next = w.hst.next + 1 := hn1
    have hsubB : ∀ i ∈ stackIds s1, st0.next ≤ i ∧ i < w.hst.next :=
      fun i hi => hidB i (hsub.mem hi)
    refine ⟨?_, hM, ?_, ?_, ?_⟩
    · show h3.opened = w.hst.next ::ₘ ((stackIds s1 : Multiset Nat) + st0.opened)
      rw [h3op, cons_add_swap]
    · show st0.next ≤ h3.next
      omega
    · refine List.nodup_cons.2 ⟨fun hmem => ?_, hsub.nodup hidsnd⟩
      have hmem' : w.hst.next ∈ stackIds s1 := hmem
      have := hsubB _ hmem'
      omega
    · intro i hi
      have hi' : i ∈ w.hst.next :: stackIds s1 := hi
      show st0.next ≤ i ∧ i < h3.next
      rcases List.mem_cons.1 hi' with rfl | hi2
      · omega
      · have := hsubB i hi2
        omega
  -- dir, `..`, checks pass
  · intro h3 s1 _ _ _ hPP _ _
    refine ⟨fun w' hw' => ?_, by simp, by simp⟩
    cases hw'
    obtain ⟨hn1, hsub, hopa⟩ := PopPart_ok_spec hPP
    have hinner : (closeFile (⟨w.hst.next + 1, w.hst.next ::ₘ w.hst.opened⟩ : HSt)
        w.cur).opened =
        (stackIds w.stack : Multiset Nat) + (w.hst.next ::ₘ st0.opened) := by
      show ((⟨w.hst.next + 1, w.hst.next ::ₘ w.hst.opened⟩ : HSt).opened).erase
        w.cur.id = _
      rw [hopen_close_cur, cons_add_swap]
    have h3op := hopa (w.hst.next ::ₘ st0.opened) hinner
    have hn1' : h3.next = w.hst.next + 1 := hn1
    have hsubB : ∀ i ∈ stackIds s1, st0.next ≤ i ∧ i < w.hst.next :=
      fun i hi => hidB i (hsub.mem hi)
    refine ⟨?_, hM, ?_, ?_, ?_⟩
    · show h3.opened = w.hst.next ::ₘ ((stackIds s1 : Multiset Nat) + st0.opened)
      rw [h3op, cons_add_swap]
    · show st0.next ≤ h3.next
      omega
    · refine List.nodup_cons.2 ⟨fun hmem => ?_, hsub.nodup hidsnd⟩
      have hmem' : w.hst.next ∈ stackIds s1 := hmem
      have := hsubB _ hmem'
      omega
    · intro i hi
      have hi' : i ∈ w.hst.next :: stackIds s1 := hi
      show st0.next ≤ i ∧ i < h3.next
      rcases List.mem_cons.1 hi' with rfl | hi2
      · omega
      · have := hsubB i hi2
        omega
  -- dir, `..`, checks fail: everything released
  · intro h3 s1 _ _ _ hPP _ _
    refine ⟨by simp, by simp, fun e w' hw' => ?_⟩
    cases hw'
    left
    obtain ⟨hn1, hsub, hopa⟩ := PopPart_ok_spec hPP
    have hinner : (closeFile (⟨w.hst.next + 1, w.hst.next ::ₘ w.hst.opened⟩ : HSt)
        w.cur).opened =
        (stackIds w.stack : Multiset Nat) + (w.hst.next ::ₘ st0.opened) := by
      show ((⟨w.hst.next + 1, w.hst.next ::ₘ w.hst.opened⟩ : HSt).opened).erase
        w.cur.id = _
      rw [hopen_close_cur, cons_add_swap]
    have h3op := hopa (w.hst.next ::ₘ st0.opened) hinner
    exact (closeAll_close_opened h3 s1
        ⟨w.hst.next, childPath w.cur.fpath (splitFirst w.rem).1⟩
        (w.hst.next ::ₘ st0.opened) h3op).trans
      (by rw [Multiset.erase_cons_head])
  -- symlink over the limit: everything released
  · intro t _ _ _ _
    refine ⟨by simp, by simp, fun e w' hw' => ?_⟩
    cases hw'
    left
    have hinner : (closeFile (⟨w.hst.next + 1, w.hst.next ::ₘ w.hst.opened⟩ : HSt)
        (⟨w.hst.next, childPath w.cur.fpath (splitFirst w.rem).1⟩ : FHandle)).opened =
        (stackIds w.stack : Multiset Nat) + (w.cur.id ::ₘ st0.opened) := by
      show ((⟨w.hst.next + 1, w.hst.next ::ₘ w.hst.opened⟩ : HSt).opened).erase
        w.hst.next = _
      rw [hopen_close_nd, cons_add_swap]
    exact (closeAll_close_opened _ w.stack w.cur
        (w.cur.id ::ₘ st0.opened) hinner).trans
      (by rw [Multiset.erase_cons_head])
  -- symlink, SwapLink error: everything released
  · intro t er _ _ _ _ _
    refine ⟨by simp, by simp, fun e w' hw' => ?_⟩
    cases hw'
    left
    have hinner : (closeFile (⟨w.hst.next + 1, w.hst.next ::ₘ w.hst.opened⟩ : HSt)
        (⟨w.hst.next, childPath w.cur.fpath (splitFirst w.rem).1⟩ : FHandle)).opened =
        (stackIds w.stack : Multiset Nat) + (w.cur.id ::ₘ st0.opened) := by
      show ((⟨w.hst.next + 1, w.hst.next ::ₘ w.hst.opened⟩ : HSt).opened).erase
        w.hst.next = _
      rw [hopen_close_nd, cons_add_swap]
    exact (closeAll_close_opened _ w.stack w.cur
        (w.cur.id ::ₘ st0.opened) hinner).trans
      (by rw [Multiset.erase_cons_head])
  -- symlink, relative target
  · intro t h3 s1 _ _ _ _ hSW _
    refine ⟨fun w' hw' => ?_, by simp, by simp⟩
    cases hw'
    have h2op : (closeFile (⟨w.hst.next + 1, w.hst.next ::ₘ w.hst.opened⟩ : HSt)
        (⟨w.hst.next, childPath w.cur.fpath (splitFirst w.rem).1⟩ : FHandle)).opened =
        w.cur.id ::ₘ ((stackIds w.stack : Multiset Nat) + st0.opened) := by
      show ((⟨w.hst.next + 1, w.hst.next ::ₘ w.hst.opened⟩ : HSt).opened).erase
        w.hst.next = _
      exact hopen_close_nd
    have h2next : (closeFile (⟨w.hst.next + 1, w.hst.next ::ₘ w.hst.opened⟩ : HSt)
        (⟨w.hst.next, childPath w.cur.fpath (splitFirst w.rem).1⟩ : FHandle)).next =
        w.hst.next + 1 := rfl
    rcases swapLink_ok_spec hSW with ⟨hsame, hids⟩ | ⟨hnx, hopn, hids⟩
    · refine ⟨?_, hM, ?_, ?_, ?_⟩
      · show h3.opened = w.cur.id ::ₘ ((stackIds s1 : Multiset Nat) + st0.opened)
        rw [hsame, h2op, hids]
      · show st0.next ≤ h3.next
        rw [hsame, h2next]
        omega
      · rw [hids]
        exact hnd
      · intro i hi
        rw [hids] at hi
        have := hbb i hi
        show st0.next ≤ i ∧ i < h3.next
        rw [hsame, h2next]
        omega
    · refine ⟨?_, hM, ?_, ?_, ?_⟩
      · show h3.opened = w.cur.id ::ₘ ((stackIds s1 : Multiset Nat) + st0.opened)
        rw [hopn, hids, h2op]
        exact open_push_form w.cur.id _ (stackIds w.stack) st0.opened
      · show st0.next ≤ h3.next
        omega
      · show (w.cur.id :: stackIds s1).Nodup
        rw [hids]
        refine List.nodup_cons.2 ⟨fun hmem => ?_, ?_⟩
        · rcases List.mem_append.1 hmem with hm | hm
          · exact hcidnotids hm
          · have heq := List.mem_singleton.1 hm
            omega
        · rw [List.nodup_append]
          refine ⟨hidsnd, List.nodup_singleton _, fun i hi hj => ?_⟩
          have heq := List.mem_singleton.1 hj
          have := hidB _ hi
          omega
      · intro i hi
        have hi' : i ∈ w.cur.id :: stackIds s1 := hi
        rw [hids] at hi'
        show st0.next ≤ i ∧ i < h3.next
        rcases List.mem_cons.1 hi' with rfl | hi2
        · omega
        · rcases List.mem_append.1 hi2 with hm | hm
          · have := hidB _ hm
            omega
          · have heq := List.mem_singleton.1 hm
            omega
  -- symlink, absolute target
  · intro t h3 s1 _ _ _ _ hSW _
    refine ⟨fun w' hw' => ?_, by simp, by simp⟩
    cases hw'
    have h2op : (closeFile (⟨w.hst.next + 1, w.hst.next ::ₘ w.hst.opened⟩ : HSt)
        (⟨w.hst.next, childPath w.cur.fpath (splitFirst w.rem).1⟩ : FHandle)).opened =
        w.cur.id ::ₘ ((stackIds w.stack : Multiset Nat) + st0.opened) := by
      show ((⟨w.hst.next + 1, w.hst.next ::ₘ w.hst.opened⟩ : HSt).opened).erase
        w.hst.next = _
      exact hopen_close_nd
    have h2next : (closeFile (⟨w.hst.next + 1, w.hst.next ::ₘ w.hst.opened⟩ : HSt)
        (⟨w.hst.next, childPath w.cur.fpath (splitFirst w.rem).1⟩ : FHandle)).next =
        w.hst.next + 1 := rfl
    rcases swapLink_ok_spec hSW with ⟨hsame, hids⟩ | ⟨hnx, hopn, hids⟩
    · -- no entry was pushed
      have hopn' : h3.opened =
          w.cur.id ::ₘ ((stackIds w.stack : Multiset Nat) + st0.opened) := by
        rw [hsame]; exact h2op
      have hnx' : h3.next = w.hst.next + 1 := by
        rw [hsame]; exact h2next
      refine ⟨?_, hM, ?_, ?_, ?_⟩
      · show ((h3.next ::ₘ h3.opened).erase w.cur.id) =
          h3.next ::ₘ ((stackIds s1 : Multiset Nat) + st0.opened)
        rw [hopn', hids, Multiset.cons_swap, Multiset.erase_cons_head]
      · show st0.next ≤ h3.next + 1
        omega
      · show (h3.next :: stackIds s1).Nodup
        rw [hids]
        refine List.nodup_cons.2 ⟨fun hmem => ?_, hidsnd⟩
        have := hidB _ hmem
        omega
      · intro i hi
        have hi' : i ∈ h3.next :: stackIds s1 := hi
        rw [hids] at hi'
        show st0.next ≤ i ∧ i < h3.next + 1
        rcases List.mem_cons.1 hi' with rfl | hi2
        · omega
        · have := hidB _ hi2
          omega
    · -- an entry holding a fresh descriptor was pushed
      have hnx' : h3.next = w.hst.next + 2 := by
        rw [hnx, h2next]
      have hopn' : h3.opened = (w.hst.next + 1) ::ₘ w.cur.id ::ₘ
          ((stackIds w.stack : Multiset Nat) + st0.opened) := by
        rw [hopn, h2op, h2next]
      have hids' : stackIds s1 = stackIds w.stack ++ [w.hst.next + 1] := by
        rw [hids, h2next]
      refine ⟨?_, hM, ?_, ?_, ?_⟩
      · show ((h3.next ::ₘ h3.opened).erase w.cur.id) =
          h3.next ::ₘ ((stackIds s1 : Multiset Nat) + st0.opened)
        rw [hopn', hids', cons_cons_erase, coe_append_singleton_add]
      · show st0.next ≤ h3.next + 1
        omega
      · show (h3.next :: stackIds s1).Nodup
        rw [hids']
        refine List.nodup_cons.2 ⟨fun hmem => ?_, ?_⟩
        · rcases List.mem_append.1 hmem with hm | hm
          · have := hidB _ hm
            omega
          · have heq := List.mem_singleton.1 hm
            omega
        · rw [List.nodup_append]
          refine ⟨hidsnd, List.nodup_singleton _, fun i hi hj => ?_⟩
          have heq := List.mem_singleton.1 hj
          have := hidB _ hi
          omega
      · intro i hi
        have hi' : i ∈ h3.next :: stackIds s1 := hi
        rw [hids'] at hi'
        show st0.next ≤ i ∧ i < h3.next + 1
        rcases List.mem_cons.1 hi' with rfl | hi2
        · omega
        · rcases List.mem_append.1 hi2 with hm | hm
          · have := hidB _ hm
            omega
          · have heq := List.mem_singleton.1 hm
            omega
  -- other type, PopPart error: the just-opened handle leaks
  · intro er _ _ _ _
    refine ⟨by simp, by simp, fun e w' hw' => ?_⟩
    cases hw'
    right
    have hinner : (closeFile (⟨w.hst.next + 1, w.hst.next ::ₘ w.hst.opened⟩ : HSt)
        w.cur).opened =
        (stackIds w.stack : Multiset Nat) + (w.hst.next ::ₘ st0.opened) := by
      show ((⟨w.hst.next + 1, w.hst.next ::ₘ w.hst.opened⟩ : HSt).opened).erase
        w.cur.id = _
      rw [hopen_close_cur, cons_add_swap]
    refine ⟨rfl, w.hst.next, hle, ?_⟩
    exact (closeAll_close_opened _ w.stack w.cur
        (w.hst.next ::ₘ st0.opened) hinner).trans
      (by rw [Multiset.erase_cons_tail _ (by omega : w.hst.next ≠ w.cur.id),
        Multiset.erase_of_not_mem hcidnotM])
  -- other type, dangling
  · intro h3 f rest _ _ _ hPP
    refine ⟨by simp, fun h r w' hw' => ?_, by simp⟩
    cases hw'
    obtain ⟨hn1, hsub, hopa⟩ := PopPart_ok_spec hPP
    have hinner : (closeFile (⟨w.hst.next + 1, w.hst.next ::ₘ w.hst.opened⟩ : HSt)
        w.cur).opened =
        (stackIds w.stack : Multiset Nat) + (w.hst.next ::ₘ st0.opened) := by
      show ((⟨w.hst.next + 1, w.hst.next ::ₘ w.hst.opened⟩ : HSt).opened).erase
        w.cur.id = _
      rw [hopen_close_cur, cons_add_swap]
    have h3op := hopa (w.hst.next ::ₘ st0.opened) hinner
    have hfid : f.dir.id ∈ stackIds w.stack :=
      hsub.mem (List.mem_cons_self _ _)
    have hinner2 : (closeFile h3
        (⟨w.hst.next, childPath w.cur.fpath (splitFirst w.rem).1⟩ : FHandle)).opened =
        (stackIds rest : Multiset Nat) + (f.dir.id ::ₘ st0.opened) := by
      show h3.opened.erase w.hst.next = _
      rw [h3op]
      have hids2 : stackIds (f :: rest) = f.dir.id :: stackIds rest := rfl
      rw [hids2, coe_cons_add, ← cons_add_swap, Multiset.cons_swap,
        Multiset.erase_cons_head, cons_add_swap]
    have := (finishOk_opened
      ⟨closeFile h3 ⟨w.hst.next, childPath w.cur.fpath (splitFirst w.rem).1⟩,
        rest, w.links, w.cur, w.cp, (splitFirst w.rem).2, w.checksDone, w.events⟩
      (f.dir.id ::ₘ st0.opened) hinner2).1
    exact ⟨this, (hidB _ hfid).1⟩
  -- other type, plain: return the just-opened handle
  · intro h3 _ _ _ hPP
    refine ⟨by simp, fun h r w' hw' => ?_, by simp⟩
    cases hw'
    obtain ⟨hn1, hsub, hopa⟩ := PopPart_ok_spec hPP
    have hinner : (closeFile (⟨w.hst.next + 1, w.hst.next ::ₘ w.hst.opened⟩ : HSt)
        w.cur).opened =
        (stackIds w.stack : Multiset Nat) + (w.hst.next ::ₘ st0.opened) := by
      show ((⟨w.hst.next + 1, w.hst.next ::ₘ w.hst.opened⟩ : HSt).opened).erase
        w.cur.id = _
      rw [hopen_close_cur, cons_add_swap]
    have h3op := hopa (w.hst.next ::ₘ st0.opened) hinner
    have hfin := (finishOk_opened
      { w with hst := h3, stack := ([] : SStack), rem := (splitFirst w.rem).2 }
      h3.opened (by simp [stackIds])).1
    refine ⟨?_, hle⟩
    rw [hfin, h3op]
    show (stackIds ([] : SStack) : Multiset Nat) + (w.hst.next ::ₘ st0.opened) =
      w.hst.next ::ₘ st0.opened
    simp [stackIds]

/-! ## C9: the caller's root handle survives every call -/

theorem partialLookup_handle_accounting (cfg : Cfg) (st0 : HSt) (root : FHandle)
    (p : Str) (fuel : Nat) (res : LRes) (w' : WSt)
    (hM : ∀ i ∈ st0.opened, i < st0.next)
    (hrun : partialLookupInRoot cfg st0 root p fuel = some (res, w')) :
    (∀ h rm, res = .inl (h, rm) →
      w'.hst.opened = h.id ::ₘ st0.opened ∧ st0.next ≤ h.id) ∧
    (∀ e, res = .inr e → w'.hst.opened = st0.opened ∨
      ∃ i, st0.next ≤ i ∧ w'.hst.opened = i ::ₘ st0.opened) := by
  have hinv := lookupLoop_inv cfg root root.fpath p (InvH st0)
    (fun res w' =>
      (∀ h rm, res = .inl (h, rm) →
        w'.hst.opened = h.id ::ₘ st0.opened ∧ st0.next ≤ h.id) ∧
      (∀ e, res = .inr e → w'.hst.opened = st0.opened ∨
        ∃ i, st0.next ≤ i ∧ w'.hst.opened = i ::ₘ st0.opened))
    (fun w hP hrem => by
      obtain ⟨hc, hd, hf⟩ := step_invH cfg root root.fpath p w st0 hP
      refine ⟨hc, fun h r w' hs => ⟨fun h' rm' heq => ?_, fun e heq => by simp at heq⟩,
        fun e w' hs => ⟨fun h' rm' heq => by simp at heq, fun e' heq => ?_⟩⟩
      · obtain ⟨h1, h2⟩ := Prod.mk.inj (Sum.inl.inj heq)
        subst h1 h2
        exact hd h r w' hs
      · obtain rfl := Sum.inr.inj heq
        rcases hf e w' hs with hl | ⟨_, i, hi1, hi2⟩
        · exact Or.inl hl
        · exact Or.inr ⟨i, hi1, hi2⟩)
    (fun w hP hrem => by
      obtain ⟨hop, hM2, hle, hnd, hbb⟩ := hP
      have hop'' : w.hst.opened =
          (stackIds w.stack : Multiset Nat) + (w.cur.id ::ₘ st0.opened) := by
        rw [hop, cons_add_swap]
      have hcl := closeAllEntries_spec w.stack w.hst (w.cur.id ::ₘ st0.opened) hop''
      refine ⟨fun h' rm' heq => ?_, fun e heq => by simp at heq⟩
      obtain ⟨h1, h2⟩ := Prod.mk.inj (Sum.inl.inj heq)
      subst h1
      exact ⟨hcl.1, (hbb w.cur.id (List.mem_cons_self _ _)).1⟩)
  refine hinv fuel
    ⟨⟨st0.next + 1, st0.next ::ₘ st0.opened⟩, [], 0, ⟨st0.next, root.fpath⟩, [],
      p, 0, []⟩ res w' ⟨?_, hM, ?_, ?_, ?_⟩ hrun
  · show st0.next ::ₘ st0.opened =
      st0.next ::ₘ ((stackIds ([] : SStack) : Multiset Nat) + st0.opened)
    simp [stackIds]
  · show st0.next ≤ st0.next + 1
    omega
  · simp [stackIds]
  · intro i hi
    have hi' : i ∈ [st0.next] := hi
    obtain rfl := List.mem_singleton.1 hi'
    exact ⟨le_refl _, Nat.lt_succ_self _⟩

/-- C9: the engine never closes the caller-supplied root handle — it is
still open after every terminating call, whatever the outcome — and the
handle a successful call returns is never the root handle itself but a
fresh descriptor (every use of the root goes through `dupFile` first, as
`partialLookupInRoot` and `lookupStep` show). -/
theorem root_handle_never_closed (cfg : Cfg) (st0 : HSt) (root : FHandle)
    (p : Str) (fuel : Nat) (res : LRes) (w' : WSt)
    (hroot : root.id ∈ st0.opened)
    (hM : ∀ i ∈ st0.opened, i < st0.next)
    (hrun : partialLookupInRoot cfg st0 root p fuel = some (res, w')) :
    root.id ∈ w'.hst.opened ∧ ∀ h rm, res = .inl (h, rm) → h.id ≠ root.id := by
  obtain ⟨hok, herr⟩ :=
    partialLookup_handle_accounting cfg st0 root p fuel res w' hM hrun
  constructor
  · cases res with
    | inl pr =>
        obtain ⟨h1, h2⟩ := hok pr.1 pr.2 rfl
        rw [h1]
        exact Multiset.mem_cons_of_mem hroot
    | inr e =>
        rcases herr e rfl with hl | ⟨i, _, hi2⟩
        · rw [hl]; exact hroot
        · rw [hi2]; exact Multiset.mem_cons_of_mem hroot
  · intro h rm heq
    obtain ⟨h1, h2⟩ := hok h rm heq
    have := hM root.id hroot
    omega

/-- Witness for `root_handle_never_closed` on the `fsTail` lookup. -/
theorem root_handle_never_closed_witness :
    (0 : Nat) ∈ (⟨⟨7, 6 ::ₘ {0}⟩, [], 2, ⟨1, [['r']]⟩, [],
        ['e', 'x', 't', 'r', 'a'], 0, []⟩ : WSt).hst.opened ∧
    ∀ h rm, (.inl (⟨6, [['r'], ['c']]⟩, ['e', 'x', 't', 'r', 'a']) : LRes) =
      .inl (h, rm) → h.id ≠ (0 : Nat) :=
  root_handle_never_closed ⟨fsTail, 255, tOracle⟩ exHSt exRoot
    ['a', '/', 'e', 'x', 't', 'r', 'a'] 30
    (.inl (⟨6, [['r'], ['c']]⟩, ['e', 'x', 't', 'r', 'a']))
    ⟨⟨7, 6 ::ₘ {0}⟩, [], 2, ⟨1, [['r']]⟩, [], ['e', 'x', 't', 'r', 'a'], 0, []⟩
    (by decide) (by decide) (by decide)

/-! ## C7: a reachable exit path leaks the just-opened handle -/

/-- C7 (violated by the code): with `/r/a -> "b"`, `/r/b -> "/"` and `/r/x`
a regular file, looking up `"a/x"` drives `partialLookupInRoot` into the
non-directory branch with a stale emptied stack entry; `PopPart` fails with
the internal broken-stack error and the function returns the error without
ever closing `nextDir` (the handle just opened on `/r/x`, id 6 here) — the
caller-attributable open-handle count is 1, not 0, on this error path. -/
theorem nonDir_broken_stack_leaks_handle :
    (partialLookupInRoot ⟨fsLeak, 255, tOracle⟩ exHSt exRoot
        ['a', '/', 'x'] 30).map (fun rw => (rw.1, rw.2.hst.opened)) =
      some (.inr .broken, 6 ::ₘ {0}) ∧
    (6 ::ₘ {0} : Multiset Nat) ≠ exHSt.opened := by
  constructor
  · decide
  · decide

/-! ## C6: the symlink counter bounds the walk -/

theorem splitFirst_snd_length_lt (s : Str) (h : s ≠ []) :
    (splitFirst s).2.length < s.length := by
  cases s with
  | nil => exact absurd rfl h
  | cons c rest =>
      simp only [splitFirst]
      split
      · simp
      · have := splitFirst_snd_length rest
        simp only [List.length_cons]
        omega

/-- The termination measure of the walk loop: symlink budget left (scaled by
the largest possible expansion) plus the remaining text. -/
def wMeasure (cfg : Cfg) (L : Nat) (w : WSt) : Nat :=
  (cfg.maxSym + 1 - w.links) * (L + 2) + w.rem.length

theorem step_measure (cfg : Cfg) (root : FHandle) (lr : FPath) (orig : Str)
    (w w' : WSt) (L : Nat)
    (hL : ∀ p t, cfg.fs p = some (.symlink t) → t.length ≤ L)
    (hlinks : w.links ≤ cfg.maxSym) (hrem : w.rem ≠ [])
    (hcont : lookupStep cfg root lr orig w = .cont w') :
    wMeasure cfg L w' < wMeasure cfg L w ∧ w'.links ≤ cfg.maxSym := by
  have hlt := splitFirst_snd_length_lt w.rem hrem
  have hsame : ∀ (v : WSt), v.links = w.links → v.rem = (splitFirst w.rem).2 →
      wMeasure cfg L v < wMeasure cfg L w ∧ v.links ≤ cfg.maxSym := by
    intro v hv1 hv2
    refine ⟨?_, by omega⟩
    show (cfg.maxSym + 1 - v.links) * (L + 2) + v.rem.length <
      (cfg.maxSym + 1 - w.links) * (L + 2) + w.rem.length
    rw [hv1, hv2]
    omega
  have hsym : ∀ (v : WSt) (t : Str),
      cfg.fs (childPath w.cur.fpath (splitFirst w.rem).1) = some (.symlink t) →
      ¬cfg.maxSym < w.links + 1 →
      v.links = w.links + 1 → v.rem = t ++ '/' :: (splitFirst w.rem).2 →
      wMeasure cfg L v < wMeasure cfg L w ∧ v.links ≤ cfg.maxSym := by
    intro v t hfs hel hv1 hv2
    have htL := hL _ _ hfs
    have hK1 : cfg.maxSym + 1 - w.links = (cfg.maxSym - w.links) + 1 := by omega
    have hK2 : cfg.maxSym + 1 - (w.links + 1) = cfg.maxSym - w.links := by omega
    refine ⟨?_, by omega⟩
    show (cfg.maxSym + 1 - v.links) * (L + 2) + v.rem.length <
      (cfg.maxSym + 1 - w.links) * (L + 2) + w.rem.length
    rw [hv1, hv2, hK1, hK2, Nat.succ_mul]
    have hlen : (t ++ '/' :: (splitFirst w.rem).2).length =
        t.length + 1 + (splitFirst w.rem).2.length := by
      simp
      omega
    omega
  revert hcont
  refine lookupStep_elim cfg root lr orig w (splitFirst w.rem).1 (splitFirst w.rem).2
    rfl _ rfl _ rfl
    (fun sr => sr = .cont w' → wMeasure cfg L w' < wMeasure cfg L w ∧
      w'.links ≤ cfg.maxSym)
    ?_ ?_ ?_ ?_ ?_ ?_ ?_ ?_ ?_ ?_ ?_ ?_ ?_ ?_ ?_ ?_
  · intro _ h
    cases h
    exact hsame _ rfl rfl
  · intro er _ _ _ h
    exact absurd h (by simp)
  · intro h1 s1 _ _ _ h
    cases h
    exact hsame _ rfl rfl
  · intro e es _ _ _ _ h
    exact absurd h (by simp)
  · intro _ _ _ _ h
    exact absurd h (by simp)
  · intro er _ _ _ _ h
    exact absurd h (by simp)
  · intro h3 s1 _ _ _ _ _ h
    cases h
    exact hsame _ rfl rfl
  · intro h3 s1 _ _ _ _ _ _ h
    cases h
    exact hsame _ rfl rfl
  · intro h3 s1 _ _ _ _ _ _ h
    exact absurd h (by simp)
  · intro t _ _ _ _ h
    exact absurd h (by simp)
  · intro t er _ _ _ _ _ h
    exact absurd h (by simp)
  · intro t h3 s1 _ _ hfs hel hSW _ h
    cases h
    exact hsym _ t hfs hel rfl rfl
  · intro t h3 s1 _ _ hfs hel hSW _ h
    cases h
    exact hsym _ t hfs hel rfl rfl
  · intro er _ _ _ _ h
    exact absurd h (by simp)
  · intro h3 f rest _ _ _ _ h
    exact absurd h (by simp)
  · intro h3 _ _ _ _ h
    exact absurd h (by simp)

theorem lookupLoop_terminates (cfg : Cfg) (root : FHandle) (lr : FPath)
    (orig : Str) (L : Nat)
    (hL : ∀ p t, cfg.fs p = some (.symlink t) → t.length ≤ L) :
    ∀ (fuel : Nat) (w : WSt), w.links ≤ cfg.maxSym →
      wMeasure cfg L w < fuel → lookupLoop cfg root lr orig fuel w ≠ none := by
  intro fuel
  induction fuel with
  | zero => intro w _ hm; omega
  | succ n ih =>
      intro w hlinks hm
      unfold lookupLoop
      by_cases hrem : w.rem = []
      · simp [hrem]
      · rw [if_neg hrem]
        cases hs : lookupStep cfg root lr orig w with
        | cont w2 =>
            obtain ⟨hmeasure, hl2⟩ :=
              step_measure cfg root lr orig w w2 L hL hlinks hrem hs
            exact ih w2 hl2 (by omega)
        | done h r w2 => simp
        | fail e w2 => simp

/-- C6: each call counts the symlinks it has followed; as soon as the
counter exceeds the configured bound at another symlink, the walk fails
with the resource-limit (`ELOOP`) failure carrying the request path, so no
self- or mutually-referential chain can make it loop: with any bound `L`
on the link targets present in the filesystem, fuel
`(maxSym + 1) * (L + 2) + |path|` always suffices for the loop to
terminate. -/
theorem symlink_limit_enforced (cfg : Cfg) (root : FHandle) :
    (∀ (lr : FPath) (orig : Str) (w : WSt) (part : Comp) (rem1 t : Str),
      splitFirst w.rem = (part, rem1) → part ≠ [] → lexJoin w.cp part ≠ [] →
      cfg.fs (childPath w.cur.fpath part) = some (.symlink t) →
      cfg.maxSym ≤ w.links →
      ∃ w', lookupStep cfg root lr orig w =
        .fail (.eloop (pathStr lr ++ '/' :: orig)) w') ∧
    (∀ (L : Nat), (∀ p t, cfg.fs p = some (.symlink t) → t.length ≤ L) →
      ∀ (st0 : HSt) (p : Str) (fuel : Nat),
        (cfg.maxSym + 1) * (L + 2) + p.length < fuel →
        partialLookupInRoot cfg st0 root p fuel ≠ none) := by
  constructor
  · intro lr orig w part rem1 t hsp hpart hncp hfs hlim
    have hp1 : (splitFirst w.rem).1 = part := by rw [hsp]
    have hp2 : (splitFirst w.rem).2 = rem1 := by rw [hsp]
    subst hp1 hp2
    refine lookupStep_elim cfg root lr orig w (splitFirst w.rem).1
      (splitFirst w.rem).2 rfl _ rfl _ rfl
      (fun sr => ∃ w', sr = .fail (.eloop (pathStr lr ++ '/' :: orig)) w')
      ?_ ?_ ?_ ?_ ?_ ?_ ?_ ?_ ?_ ?_ ?_ ?_ ?_ ?_ ?_ ?_
    · intro hp
      exact absurd hp hpart
    · intro er _ hj _
      exact absurd hj hncp
    · intro h1 s1 _ hj _
      exact absurd hj hncp
    · intro e es _ _ hmiss _
      rw [hfs] at hmiss
      exact absurd hmiss (by simp)
    · intro _ _ hmiss _
      rw [hfs] at hmiss
      exact absurd hmiss (by simp)
    · intro er _ _ hdir _
      rw [hfs] at hdir
      exact absurd hdir (by simp)
    · intro h3 s1 _ _ hdir _ _
      rw [hfs] at hdir
      exact absurd hdir (by simp)
    · intro h3 s1 _ _ hdir _ _ _
      rw [hfs] at hdir
      exact absurd hdir (by simp)
    · intro h3 s1 _ _ hdir _ _ _
      rw [hfs] at hdir
      exact absurd hdir (by simp)
    · intro t2 _ _ _ _
      exact ⟨_, rfl⟩
    · intro t2 er _ _ _ hel _
      exact absurd (by omega : cfg.maxSym < w.links + 1) hel
    · intro t2 h3 s1 _ _ _ hel _ _
      exact absurd (by omega : cfg.maxSym < w.links + 1) hel
    · intro t2 h3 s1 _ _ _ hel _ _
      exact absurd (by omega : cfg.maxSym < w.links + 1) hel
    · intro er _ _ hoth _
      rw [hfs] at hoth
      exact absurd hoth (by simp)
    · intro h3 f rest _ _ hoth _
      rw [hfs] at hoth
      exact absurd hoth (by simp)
    · intro h3 _ _ hoth _
      rw [hfs] at hoth
      exact absurd hoth (by simp)
  · intro L hL st0 p fuel hfuel
    have := lookupLoop_terminates cfg root root.fpath p L hL fuel
      ⟨⟨st0.next + 1, st0.next ::ₘ st0.opened⟩, [], 0, ⟨st0.next, root.fpath⟩, [],
        p, 0, []⟩
      (by show (0 : Nat) ≤ cfg.maxSym; omega)
      (by show (cfg.maxSym + 1 - 0) * (L + 2) + p.length < fuel
          rw [Nat.sub_zero]
          exact hfuel)
    exact this

/-- Witness for `symlink_limit_enforced`: with the self-loop `/r/a -> "a"`
and bound 2, the step at the third encounter fails with `ELOOP` over
`"/r/a"`, and the whole lookup of `"a"` terminates with that failure. -/
theorem symlink_limit_enforced_witness :
    (∃ w', lookupStep ⟨fsLoop, 2, tOracle⟩ exRoot [['r']] ['a']
        ⟨⟨5, 1 ::ₘ {0}⟩, [⟨⟨3, [['r']]⟩, ['a'], [['a']]⟩, ⟨⟨4, [['r']]⟩, ['a'], [['a']]⟩],
         2, ⟨1, [['r']]⟩, [], ['a'], 0, []⟩ =
      .fail (.eloop (pathStr [['r']] ++ '/' :: ['a'])) w') ∧
    partialLookupInRoot ⟨fsLoop, 2, tOracle⟩ exHSt exRoot ['a'] 30 ≠ none ∧
    (partialLookupInRoot ⟨fsLoop, 2, tOracle⟩ exHSt exRoot ['a'] 30).map
        (fun rw => rw.1) = some (.inr (.eloop ['/', 'r', '/', 'a'])) :=
  ⟨(symlink_limit_enforced ⟨fsLoop, 2, tOracle⟩ exRoot).1 [['r']] ['a']
     ⟨⟨5, 1 ::ₘ {0}⟩, [⟨⟨3, [['r']]⟩, ['a'], [['a']]⟩, ⟨⟨4, [['r']]⟩, ['a'], [['a']]⟩],
      2, ⟨1, [['r']]⟩, [], ['a'], 0, []⟩
     ['a'] [] ['a'] (by decide) (by decide) (by decide) (by decide) (by decide),
   (symlink_limit_enforced ⟨fsLoop, 2, tOracle⟩ exRoot).2 1
     (fun p t h => by
       have h' : fsLoop p = some (.symlink t) := h
       unfold fsLoop at h'
       split at h'
       · simp at h'
       · split at h'
         · simp at h'
         · split at h'
           · obtain rfl : (['a'] : Str) = t := by
               simpa using h'
             decide
           · simp at h')
     exHSt ['a'] 30 (by decide),
   by decide⟩

/-! ## C3: the shape of the remaining path

A symlink step rewrites the remaining path to `target ++ "/" ++ rest`, so
the target's own text (including any trailing slashes) enters the remaining
path verbatim and a literal-suffix statement fails.  What does hold: the
remaining path is always a (possibly empty) run of `'/'` characters followed
by a literal suffix of the original request path. -/

/-- Every character of the text is a `'/'`. -/
def allSlash (s : Str) : Prop := ∀ c ∈ s, c = '/'

/-- The text is a run of slashes followed by a literal suffix of `u`. -/
def SlashSuffix (u rem : Str) : Prop :=
  ∃ S t, rem = S ++ t ∧ allSlash S ∧ t <:+ u

/-- The boundary condition a stored prefix keeps against the text after it:
it is empty, ends in a separator, or nothing follows it. -/
def okPre (pre rest : Str) : Prop :=
  pre = [] ∨ pre.getLast? = some '/' ∨ rest = []

theorem allSlash_nil : allSlash [] := fun c hc => absurd hc (List.not_mem_nil c)

theorem allSlash_append {S S' : Str} (h : allSlash S) (h' : allSlash S') :
    allSlash (S ++ S') :=
  fun c hc => (List.mem_append.1 hc).elim (h c) (h' c)

theorem slashSuffix_refl (u : Str) : SlashSuffix u u :=
  ⟨[], u, rfl, allSlash_nil, List.suffix_refl u⟩

theorem slashSuffix_of_suffix {u t : Str} (h : t <:+ u) : SlashSuffix u t :=
  ⟨[], t, rfl, allSlash_nil, h⟩

theorem slashSuffix_suffix_of_part_ne {u rem : Str} (h : SlashSuffix u rem)
    (hp : (splitFirst rem).1 ≠ []) : rem <:+ u := by
  obtain ⟨S, t, heq, hS, ht⟩ := h
  cases S with
  | nil => rw [heq]; simpa using ht
  | cons c S' =>
      have hc : c = '/' := hS c (List.mem_cons_self c S')
      subst hc heq
      simp [splitFirst] at hp

theorem slashSuffix_tail {u rest : Str} (h : SlashSuffix u ('/' :: rest)) :
    SlashSuffix u rest := by
  obtain ⟨S, t, heq, hS, ht⟩ := h
  cases S with
  | nil =>
      simp only [List.nil_append] at heq
      subst heq
      exact ⟨[], rest, rfl, allSlash_nil, List.IsSuffix.trans ⟨['/'], rfl⟩ ht⟩
  | cons c S' =>
      simp only [List.cons_append, List.cons.injEq] at heq
      exact ⟨S', t, heq.2, fun a ha => hS a (List.mem_cons_of_mem c ha), ht⟩

theorem splitFirst_no_slash {s : Str} (h : '/' ∉ s) : splitFirst s = (s, []) := by
  induction s with
  | nil => rfl
  | cons c rest ih =>
      simp only [List.mem_cons, not_or] at h
      have hc : ¬ c = '/' := fun hc => h.1 hc.symm
      simp only [splitFirst, ih h.2]
      rw [if_neg hc]

theorem splitFirst_append_left {s : Str} (r : Str) (h : '/' ∈ s) :
    splitFirst (s ++ r) = ((splitFirst s).1, (splitFirst s).2 ++ r) := by
  induction s with
  | nil => simp at h
  | cons c rest ih =>
      by_cases hc : c = '/'
      · subst hc; simp [splitFirst]
      · have h' : '/' ∈ rest := by
          rcases List.mem_cons.1 h with h1 | h2
          · exact absurd h1.symm hc
          · exact h2
        simp only [List.cons_append, splitFirst, List.append_eq]
        rw [if_neg hc, ih h']
        simp [hc]

theorem splitFirst_append_slash_of_no_slash {s : Str} (r : Str) (h : '/' ∉ s) :
    splitFirst (s ++ '/' :: r) = (s, r) := by
  induction s with
  | nil => simp [splitFirst]
  | cons c rest ih =>
      simp only [List.mem_cons, not_or] at h
      have hc : ¬ c = '/' := fun hc => h.1 hc.symm
      simp only [List.cons_append, splitFirst, List.append_eq]
      rw [if_neg hc, ih h.2]

theorem getLast?_of_suffix {α : Type} {l₁ l₂ : List α} (h : l₁ <:+ l₂)
    (hne : l₁ ≠ []) : l₂.getLast? = l₁.getLast? := by
  obtain ⟨t, rfl⟩ := h
  exact List.getLast?_append_of_ne_nil t hne

theorem pathComps_eq_nil_of_allSlash {s : Str} (h : allSlash s) :
    pathComps s = [] := by
  induction s with
  | nil => rfl
  | cons c rest ih =>
      have hc : c = '/' := h c (List.mem_cons_self c rest)
      rw [pathComps_cons, if_pos hc]
      exact ih (fun a ha => h a (List.mem_cons_of_mem c ha))

theorem allSlash_of_pathComps_eq_nil {s : Str} (h : pathComps s = []) :
    allSlash s := by
  induction s with
  | nil => exact allSlash_nil
  | cons c rest ih =>
      rw [pathComps_cons] at h
      by_cases hc : c = '/'
      · rw [if_pos hc] at h
        intro a ha
        rcases List.mem_cons.1 ha with rfl | ha2
        · exact hc
        · exact ih h a ha2
      · rw [if_neg hc] at h
        exact absurd h (List.cons_ne_nil _ _)

theorem pathComps_slash_append {S : Str} (x : Str) (h : allSlash S) :
    pathComps (S ++ x) = pathComps x := by
  induction S with
  | nil => rfl
  | cons c rest ih =>
      have hc : c = '/' := h c (List.mem_cons_self c rest)
      rw [List.cons_append, pathComps_cons, if_pos hc,
        ih (fun a ha => h a (List.mem_cons_of_mem c ha))]

theorem pathComps_append_slash_bounded : ∀ (n : Nat) (x : Str), x.length ≤ n →
    pathComps (x ++ ['/']) = pathComps x := by
  intro n
  induction n with
  | zero =>
      intro x hx
      obtain rfl := List.eq_nil_of_length_eq_zero (Nat.le_zero.1 hx)
      rfl
  | succ n ih =>
      intro x hx
      cases x with
      | nil => rfl
      | cons c rest =>
          have hr : rest.length ≤ n := by simp at hx; omega
          by_cases hc : c = '/'
          · rw [List.cons_append, pathComps_cons, if_pos hc, pathComps_cons,
              if_pos hc]
            exact ih rest hr
          · rw [List.cons_append, pathComps_cons, if_neg hc, pathComps_cons,
              if_neg hc]
            by_cases hs : '/' ∈ rest
            · rw [splitFirst_append_left ['/'] hs]
              refine congrArg _ ?_
              exact ih (splitFirst rest).2 ((splitFirst_snd_length rest).trans hr)
            · rw [splitFirst_no_slash hs,
                show rest ++ ['/'] = rest ++ '/' :: [] from rfl,
                splitFirst_append_slash_of_no_slash [] hs]

theorem pathComps_append_slash (x : Str) :
    pathComps (x ++ ['/']) = pathComps x :=
  pathComps_append_slash_bounded x.length x (Nat.le_refl _)

/-- The remaining-path/stack relationship, read down the reversed stack
(newest entry first): the remaining path is a stored prefix (whose
components are exactly the entry's unwalked components, with a kept
boundary) glued onto the suffix of that entry's saved remaining path, and
so on; below the oldest entry the text is a slash run plus a literal suffix
of the request `u`. -/
def Chain3 (u : Str) : Str → List SEntry → Prop
  | rem, [] => SlashSuffix u rem
  | rem, e :: es =>
      (∃ pre, rem = pre ++ (splitFirst e.rem).2 ∧ pathComps pre = e.unwalked ∧
        okPre pre (splitFirst e.rem).2) ∧
      Chain3 u (splitFirst e.rem).2 es

/-- The stack's tail entry has been emptied (its unwalked components are
exhausted), so slash-skipping can disconnect the remaining path from the
chain; `PopPart`-style operations fail from such a state. -/
def degenStack (s : SStack) : Prop :=
  ∃ e, s.getLast? = some e ∧ e.unwalked = []

/-- The C3 walk invariant: the front entry's saved remaining path is a
literal suffix of the request, and the chain relationship (or the tail
entry is emptied). -/
def Inv3 (u : Str) (w : WSt) : Prop :=
  (∀ e, w.stack.head? = some e → e.rem <:+ u) ∧
  (Chain3 u w.rem w.stack.reverse ∨ degenStack w.stack)

theorem mem_of_getLast?_eq {α : Type} {l : List α} {a : α}
    (h : l.getLast? = some a) : a ∈ l := by
  rw [getLast?_eq_some_decomp h]
  exact List.mem_append.2 (Or.inr (List.mem_singleton.2 rfl))

theorem chain_consume : ∀ (pre rest : Str) (u0 : Comp) (us : List Comp),
    pathComps pre = u0 :: us → okPre pre rest →
    (splitFirst (pre ++ rest)).1 ≠ [] →
    ∃ pre', (splitFirst (pre ++ rest)).2 = pre' ++ rest ∧
      pathComps pre' = us ∧ okPre pre' rest := by
  intro pre
  induction pre with
  | nil =>
      intro rest u0 us hcomps _ _
      exact absurd hcomps.symm (List.cons_ne_nil u0 us)
  | cons c pre2 ih =>
      intro rest u0 us hcomps hok hpart
      by_cases hc : c = '/'
      · subst hc
        simp [splitFirst] at hpart
      · rw [pathComps_cons, if_neg hc] at hcomps
        have hus : pathComps (splitFirst pre2).2 = us :=
          (List.cons.inj hcomps).2
        by_cases hs : '/' ∈ pre2
        · have hsp := splitFirst_append_left rest hs
          refine ⟨(splitFirst pre2).2, ?_, hus, ?_⟩
          · simp only [List.cons_append, splitFirst, List.append_eq]
            rw [if_neg hc, hsp]
          · rcases hok with h0 | hlast | hrest
            · exact absurd h0 (List.cons_ne_nil c pre2)
            · by_cases hp2 : (splitFirst pre2).2 = []
              · exact Or.inl hp2
              · refine Or.inr (Or.inl ?_)
                have h1 : pre2 ≠ [] := by
                  intro hn
                  subst hn
                  rw [show ([c] : Str).getLast? = some c from rfl] at hlast
                  exact hc (Option.some.inj hlast)
                have h2 : (c :: pre2).getLast? = pre2.getLast? :=
                  getLast?_of_suffix ⟨[c], rfl⟩ h1
                have h3 : pre2.getLast? = (splitFirst pre2).2.getLast? :=
                  getLast?_of_suffix (splitFirst_snd_suffix pre2) hp2
                rw [← h3, ← h2]
                exact hlast
            · exact Or.inr (Or.inr hrest)
        · have h1 : splitFirst pre2 = (pre2, []) := splitFirst_no_slash hs
          rw [h1] at hus
          have hrest : rest = [] := by
            rcases hok with h0 | hlast | hr
            · exact absurd h0 (List.cons_ne_nil c pre2)
            · exfalso
              have hm : '/' ∈ c :: pre2 := mem_of_getLast?_eq hlast
              rcases List.mem_cons.1 hm with h2 | h2
              · exact hc h2.symm
              · exact hs h2
            · exact hr
          subst hrest
          refine ⟨[], ?_, hus, Or.inl rfl⟩
          simp only [List.append_nil, splitFirst, List.append_eq]
          rw [if_neg hc, h1]

theorem chain_slash_prepend {u : Str} {S rem : Str} {l : List SEntry}
    (hS : allSlash S) (h : Chain3 u rem l) : Chain3 u (S ++ rem) l := by
  cases l with
  | nil =>
      obtain ⟨S', t, rfl, hS', ht⟩ := h
      exact ⟨S ++ S', t, by rw [List.append_assoc], allSlash_append hS hS', ht⟩
  | cons e es =>
      obtain ⟨⟨pre, hre, hcomps, hok⟩, hrest⟩ := h
      refine ⟨⟨S ++ pre, by rw [hre, List.append_assoc], ?_, ?_⟩, hrest⟩
      · rw [pathComps_slash_append pre hS, hcomps]
      · cases hSnil : S with
        | nil => simpa using hok
        | cons a S2 =>
            rcases hok with h0 | hlast | hrest2
            · subst h0
              refine Or.inr (Or.inl ?_)
              rw [List.append_nil, ← hSnil]
              have hne : S ≠ [] := by rw [hSnil]; exact List.cons_ne_nil a S2
              obtain ⟨b, hb⟩ := Option.ne_none_iff_exists'.1
                (fun hn => hne (List.getLast?_eq_none_iff.1 hn))
              rw [hb]
              exact congrArg some (hS b (mem_of_getLast?_eq hb))
            · refine Or.inr (Or.inl ?_)
              have hpne : pre ≠ [] := by
                intro hn
                subst hn
                simp at hlast
              rw [← hSnil, getLast?_of_suffix (⟨S, rfl⟩ : pre <:+ S ++ pre) hpne]
              exact hlast
            · exact Or.inr (Or.inr hrest2)

theorem chain_dropEmptyRev {u rem : Str} : ∀ (l : List SEntry) (st : HSt),
    Chain3 u rem l → Chain3 u rem (dropEmptyRev st l).2 := by
  intro l
  induction l with
  | nil => intro st h; exact h
  | cons e es ih =>
      intro st h
      by_cases he : e.unwalked = []
      · simp only [dropEmptyRev, if_pos he]
        obtain ⟨⟨pre, hre, hcomps, _⟩, hrest⟩ := h
        rw [he] at hcomps
        subst hre
        exact ih _ (chain_slash_prepend (allSlash_of_pathComps_eq_nil hcomps) hrest)
      · simp only [dropEmptyRev, if_neg he]
        exact h

theorem popPart_emptyStack {part : Comp} {s : SStack}
    (h : popPart part s = .error .emptyStack) : s = [] := by
  rcases List.eq_nil_or_concat s with rfl | ⟨s0, e, rfl⟩
  · rfl
  · obtain ⟨dh, rh, uh⟩ := e
    simp only [List.concat_eq_append] at h ⊢
    cases uh with
    | nil => simp [popPart, List.getLast?_concat] at h
    | cons a t =>
        simp only [popPart, List.getLast?_concat] at h
        by_cases ha : a = part
        · rw [if_pos ha] at h; simp at h
        · rw [if_neg ha] at h; simp at h

theorem not_degen_of_popPart_ok {part : Comp} {s s' : SStack}
    (h : popPart part s = .ok s') : ¬ degenStack s := by
  obtain ⟨e, t, hg, hu, _⟩ := popPart_ok_shape h
  rintro ⟨e2, hg2, hu2⟩
  rw [hg] at hg2
  obtain rfl := Option.some.inj hg2
  rw [hu] at hu2
  exact List.cons_ne_nil part t hu2

theorem head?_of_prefix {α : Type} {l₁ l₂ : List α} {a : α}
    (h : l₁ <+: l₂) (ha : l₁.head? = some a) : l₂.head? = some a := by
  obtain ⟨q, rfl⟩ := h
  cases l₁ with
  | nil => simp at ha
  | cons x b => simpa using ha

theorem head?_append_of_ne_nil {α : Type} {l₁ : List α} (l₂ : List α)
    (h : l₁ ≠ []) : (l₁ ++ l₂).head? = l₁.head? := by
  cases l₁ with
  | nil => exact absurd rfl h
  | cons x b => rfl

theorem head_of_popPart_shape {s : SStack} {e : SEntry} {t : List Comp}
    {f : SEntry} (hsdec : s = s.dropLast ++ [e])
    (hf : (s.dropLast ++ [{ e with unwalked := t }]).head? = some f) :
    ∃ e0, s.head? = some e0 ∧ f.rem = e0.rem := by
  cases hdl : s.dropLast with
  | nil =>
      rw [hdl] at hf
      simp only [List.nil_append, List.head?_cons, Option.some.injEq] at hf
      refine ⟨e, ?_, ?_⟩
      · conv_lhs => rw [hsdec, hdl]
        simp
      · rw [← hf]
  | cons x xs =>
      rw [hdl] at hf
      simp only [List.cons_append, List.head?_cons, Option.some.injEq] at hf
      refine ⟨x, ?_, by rw [← hf]⟩
      conv_lhs => rw [hsdec, hdl]
      rfl

theorem allSlash_target_slash {target : Str} (h : pathComps target = []) :
    allSlash (target ++ ['/']) :=
  allSlash_append (allSlash_of_pathComps_eq_nil h)
    (fun _ hc => List.mem_singleton.1 hc)

theorem okPre_target_slash (target : Str) (rest : Str) :
    okPre (target ++ ['/']) rest :=
  Or.inr (Or.inl (by rw [List.getLast?_concat]))

theorem append_slash_cons (target rest : Str) :
    target ++ '/' :: rest = (target ++ ['/']) ++ rest := by
  rw [List.append_assoc]
  rfl

theorem chain_PopPart_ok {u rem : Str} {st st' : HSt} {part : Comp}
    {s s1 : SStack}
    (hPP : PopPart st part s = .ok (st', s1))
    (hInv : Chain3 u rem s.reverse ∨ degenStack s)
    (hpart : (splitFirst rem).1 = part) (hpne : part ≠ []) :
    Chain3 u (splitFirst rem).2 s1.reverse ∧
    (∀ f, s1.head? = some f → ∃ e, s.head? = some e ∧ f.rem = e.rem) := by
  unfold PopPart at hPP
  cases hpop : popPart part s with
  | error er =>
      rw [hpop] at hPP
      cases er with
      | emptyStack =>
          simp only [Except.ok.injEq, Prod.mk.injEq] at hPP
          obtain ⟨hst, hs1⟩ := hPP
          subst hs1
          obtain rfl := popPart_emptyStack hpop
          constructor
          · have hch : Chain3 u rem (List.reverse ([] : SStack)) := by
              rcases hInv with h | ⟨e, hg, _⟩
              · exact h
              · simp at hg
            have hsfx : rem <:+ u :=
              slashSuffix_suffix_of_part_ne hch (by rw [hpart]; exact hpne)
            exact slashSuffix_of_suffix ((splitFirst_snd_suffix rem).trans hsfx)
          · intro f hf
            simp at hf
      | broken => simp at hPP
  | ok s2 =>
      rw [hpop] at hPP
      simp only [Except.ok.injEq] at hPP
      obtain ⟨e, t, hg, hu, hs2⟩ := popPart_ok_shape hpop
      have hch : Chain3 u rem s.reverse := by
        rcases hInv with h | hdeg
        · exact h
        · exact absurd hdeg (not_degen_of_popPart_ok hpop)
      have hsdec := getLast?_eq_some_decomp hg
      have hrev : s.reverse = e :: s.dropLast.reverse := by
        conv_lhs => rw [hsdec]
        simp
      rw [hrev] at hch
      simp only [Chain3] at hch
      obtain ⟨⟨pre, hre, hcomps, hok⟩, hrest⟩ := hch
      rw [hu] at hcomps
      subst hre
      obtain ⟨pre', hre', hcomps', hok'⟩ :=
        chain_consume pre (splitFirst e.rem).2 part t hcomps hok
          (by rw [hpart]; exact hpne)
      have hrev2 : s2.reverse = { e with unwalked := t } :: s.dropLast.reverse := by
        rw [hs2]; simp
      have hch2 : Chain3 u (splitFirst (pre ++ (splitFirst e.rem).2)).2
          s2.reverse := by
        rw [hrev2]
        simp only [Chain3]
        exact ⟨⟨pre', hre', hcomps', hok'⟩, hrest⟩
      have hs1 : (cleanupStack st s2).2 = s1 := by
        rw [hPP]
      have hs1r : s1.reverse = (dropEmptyRev st s2.reverse).2 := by
        rw [← hs1]
        unfold cleanupStack
        simp
      constructor
      · rw [hs1r]
        exact chain_dropEmptyRev s2.reverse st hch2
      · intro f hf
        have hpre : s1 <+: s2 := by
          have h2 := (cleanupStack_sub st s2).1
          rw [hs1] at h2
          exact h2
        have hf2 : s2.head? = some f := head?_of_prefix hpre hf
        rw [hs2] at hf2
        exact head_of_popPart_shape hsdec hf2

theorem chain_swapLink_ok {u rem : Str} {st st' : HSt} {part : Comp}
    {dir : FHandle} {s s1 : SStack} {target : Str}
    (hSW : swapLink st s part dir rem target = .ok (st', s1))
    (hInv : Chain3 u rem s.reverse ∨ degenStack s)
    (hpart : (splitFirst rem).1 = part) (hpne : part ≠ []) :
    Chain3 u (target ++ '/' :: (splitFirst rem).2) s1.reverse ∧
    (∀ f, s1.head? = some f → (∃ e, s.head? = some e ∧ f.rem = e.rem) ∨
      (s = [] ∧ f.rem = rem)) := by
  unfold swapLink at hSW
  cases hpop : popPart part s with
  | error er =>
      rw [hpop] at hSW
      cases er with
      | broken => simp at hSW
      | emptyStack =>
          obtain rfl := popPart_emptyStack hpop
          simp only [Except.ok.injEq] at hSW
          have hch : Chain3 u rem (List.reverse ([] : SStack)) := by
            rcases hInv with h | ⟨e, hg, _⟩
            · exact h
            · simp at hg
          have hsfx : rem <:+ u :=
            slashSuffix_suffix_of_part_ne hch (by rw [hpart]; exact hpne)
          have hrem1 : SlashSuffix u (splitFirst rem).2 :=
            slashSuffix_of_suffix ((splitFirst_snd_suffix rem).trans hsfx)
          by_cases hparts : pathComps target = []
          · rw [pushStack, if_pos hparts] at hSW
            obtain ⟨h1, h2⟩ := Prod.mk.inj hSW
            subst h2
            constructor
            · simp only [List.reverse_nil, Chain3]
              obtain ⟨S, tl, heq, hall, htl⟩ := hrem1
              exact ⟨(target ++ ['/']) ++ S, tl,
                by rw [heq]; simp,
                allSlash_append (allSlash_target_slash hparts) hall, htl⟩
            · intro f hf
              simp at hf
          · rw [pushStack, if_neg hparts] at hSW
            obtain ⟨h1, h2⟩ := Prod.mk.inj hSW
            subst h2
            constructor
            · simp only [List.nil_append, List.reverse_cons, List.reverse_nil,
                Chain3]
              refine ⟨⟨target ++ ['/'], ?_, ?_, okPre_target_slash target _⟩, hrem1⟩
              · rw [append_slash_cons]
              · rw [pathComps_append_slash]
            · intro f hf
              simp only [List.nil_append, List.head?_cons,
                Option.some.injEq] at hf
              exact Or.inr ⟨rfl, by rw [← hf]⟩
  | ok s2 =>
      rw [hpop] at hSW
      simp only [Except.ok.injEq] at hSW
      obtain ⟨e, t, hg, hu, hs2⟩ := popPart_ok_shape hpop
      have hch : Chain3 u rem s.reverse := by
        rcases hInv with h | hdeg
        · exact h
        · exact absurd hdeg (not_degen_of_popPart_ok hpop)
      have hsdec := getLast?_eq_some_decomp hg
      have hrev : s.reverse = e :: s.dropLast.reverse := by
        conv_lhs => rw [hsdec]
        simp
      rw [hrev] at hch
      simp only [Chain3] at hch
      obtain ⟨⟨pre, hre, hcomps, hok⟩, hrest⟩ := hch
      rw [hu] at hcomps
      subst hre
      obtain ⟨pre', hre', hcomps', hok'⟩ :=
        chain_consume pre (splitFirst e.rem).2 part t hcomps hok
          (by rw [hpart]; exact hpne)
      have hrev2 : s2.reverse = { e with unwalked := t } :: s.dropLast.reverse := by
        rw [hs2]; simp
      have hs2ne : s2 ≠ [] := by
        rw [hs2]
        intro hx
        exact absurd (List.append_eq_nil.1 hx).2 (List.cons_ne_nil _ _)
      by_cases hparts : pathComps target = []
      · rw [pushStack, if_pos hparts] at hSW
        obtain ⟨h1, h2⟩ := Prod.mk.inj hSW
        subst h2
        constructor
        · rw [hrev2]
          simp only [Chain3]
          refine ⟨⟨(target ++ ['/']) ++ pre', ?_, ?_, ?_⟩, hrest⟩
          · rw [append_slash_cons, hre', ← List.append_assoc]
          · rw [pathComps_slash_append pre' (allSlash_target_slash hparts),
              hcomps']
          · rcases hok' with h0 | hlast | hrst
            · subst h0
              rw [List.append_nil]
              exact okPre_target_slash target _
            · refine Or.inr (Or.inl ?_)
              have hpne2 : pre' ≠ [] := by
                intro hn
                rw [hn] at hlast
                simp at hlast
              rw [getLast?_of_suffix (⟨target ++ ['/'], rfl⟩ :
                pre' <:+ (target ++ ['/']) ++ pre') hpne2]
              exact hlast
            · exact Or.inr (Or.inr hrst)
        · intro f hf
          rw [hs2] at hf
          exact Or.inl (head_of_popPart_shape hsdec hf)
      · rw [pushStack, if_neg hparts] at hSW
        obtain ⟨h1, h2⟩ := Prod.mk.inj hSW
        subst h2
        constructor
        · simp only [List.reverse_append, List.reverse_cons, List.reverse_nil,
            List.nil_append, List.cons_append, Chain3]
          refine ⟨⟨target ++ ['/'], ?_, ?_, okPre_target_slash target _⟩, ?_⟩
          · rw [append_slash_cons]
          · rw [pathComps_append_slash]
          · rw [hrev2]
            simp only [Chain3]
            exact ⟨⟨pre', hre', hcomps', hok'⟩, hrest⟩
        · intro f hf
          rw [head?_append_of_ne_nil _ hs2ne, hs2] at hf
          exact Or.inl (head_of_popPart_shape hsdec hf)

theorem rem_slash_of_part_nil {s : Str} (hne : s ≠ [])
    (hp : (splitFirst s).1 = []) : s = '/' :: (splitFirst s).2 := by
  cases s with
  | nil => exact absurd rfl hne
  | cons c rest =>
      by_cases hc : c = '/'
      · subst hc; simp [splitFirst]
      · simp [splitFirst, hc] at hp

theorem step_inv3 (cfg : Cfg) (root : FHandle) (lr : FPath) (orig : Str)
    (u : Str) (w : WSt) (hP : Inv3 u w) (hrem : w.rem ≠ []) :
    (∀ w', lookupStep cfg root lr orig w = .cont w' → Inv3 u w') ∧
    (∀ h r w', lookupStep cfg root lr orig w = .done h r w' → SlashSuffix u r) ∧
    (∀ e w', lookupStep cfg root lr orig w = .fail e w' → True) := by
  obtain ⟨hFront, hChain⟩ := hP
  refine lookupStep_elim cfg root lr orig w (splitFirst w.rem).1 (splitFirst w.rem).2
    rfl _ rfl _ rfl
    (fun sr =>
      (∀ w', sr = .cont w' → Inv3 u w') ∧
      (∀ h r w', sr = .done h r w' → SlashSuffix u r) ∧
      (∀ e w', sr = .fail e w' → True))
    ?_ ?_ ?_ ?_ ?_ ?_ ?_ ?_ ?_ ?_ ?_ ?_ ?_ ?_ ?_ ?_
  -- skip a leading slash
  · intro hp0
    refine ⟨fun w' hw' => ?_, by simp, by simp⟩
    cases hw'
    have h1 := rem_slash_of_part_nil hrem hp0
    refine ⟨hFront, ?_⟩
    show Chain3 u (splitFirst w.rem).2 w.stack.reverse ∨ degenStack w.stack
    rcases hChain with hch | hdeg
    · cases hsr : w.stack.reverse with
      | nil =>
          rw [hsr] at hch
          simp only [Chain3] at hch
          rw [h1] at hch
          refine Or.inl ?_
          simp only [Chain3]
          exact slashSuffix_tail hch
      | cons e es =>
          rw [hsr] at hch
          simp only [Chain3] at hch
          obtain ⟨⟨pre, hre, hcomps, hok⟩, hrest⟩ := hch
          cases hprec : pre with
          | nil =>
              refine Or.inr ⟨e, ?_, ?_⟩
              · rw [← List.head?_reverse, hsr]
                rfl
              · rw [← hcomps, hprec]
                rfl
          | cons c0 pre2 =>
              refine Or.inl ?_
              simp only [Chain3]
              rw [hprec] at hre
              rw [h1] at hre
              simp only [List.cons_append, List.cons.injEq] at hre
              refine ⟨⟨pre2, hre.2, ?_, ?_⟩, hrest⟩
              · rw [hprec, pathComps_cons, if_pos hre.1.symm] at hcomps
                exact hcomps
              · rcases hok with hk | hk | hk
                · rw [hprec] at hk
                  exact absurd hk (List.cons_ne_nil c0 pre2)
                · by_cases hp2 : pre2 = []
                  · exact Or.inl hp2
                  · refine Or.inr (Or.inl ?_)
                    have hgl := getLast?_of_suffix
                      (⟨[c0], rfl⟩ : pre2 <:+ c0 :: pre2) hp2
                    rw [hprec, hgl] at hk
                    exact hk
                · exact Or.inr (Or.inr hk)
    · exact Or.inr hdeg
  -- jump-to-root, PopPart error
  · intro er _ _ _
    exact ⟨by simp, by simp, fun _ _ _ => trivial⟩
  -- jump-to-root, ok
  · intro h1 s1 hp _ hPP
    obtain ⟨hch2, hhead⟩ := chain_PopPart_ok hPP hChain rfl hp
    refine ⟨fun w' hw' => ?_, by simp, by simp⟩
    cases hw'
    refine ⟨?_, Or.inl hch2⟩
    intro f hf
    obtain ⟨e, he, hre⟩ := hhead f hf
    rw [hre]
    exact hFront e he
  -- not-found, dangling
  · intro e es _ _ _ hstack
    refine ⟨by simp, fun h r w' hw' => ?_, by simp⟩
    cases hw'
    exact slashSuffix_of_suffix (hFront e (by rw [hstack]; rfl))
  -- not-found, plain
  · intro hp _ _ hstk
    refine ⟨by simp, fun h r w' hw' => ?_, by simp⟩
    cases hw'
    have hch : Chain3 u w.rem w.stack.reverse := by
      rcases hChain with h | ⟨e, hg, _⟩
      · exact h
      · rw [hstk] at hg; simp at hg
    rw [hstk] at hch
    simp only [List.reverse_nil, Chain3] at hch
    exact hch
  -- dir, PopPart error
  · intro er _ _ _ _
    exact ⟨by simp, by simp, fun _ _ _ => trivial⟩
  -- dir, normal descent
  · intro h3 s1 hp _ _ hPP _
    obtain ⟨hch2, hhead⟩ := chain_PopPart_ok hPP hChain rfl hp
    refine ⟨fun w' hw' => ?_, by simp, by simp⟩
    cases hw'
    refine ⟨?_, Or.inl hch2⟩
    intro f hf
    obtain ⟨e, he, hre⟩ := hhead f hf
    rw [hre]
    exact hFront e he
  -- dir, `..` with passing checks
  · intro h3 s1 hp _ _ hPP _ _
    obtain ⟨hch2, hhead⟩ := chain_PopPart_ok hPP hChain rfl hp
    refine ⟨fun w' hw' => ?_, by simp, by simp⟩
    cases hw'
    refine ⟨?_, Or.inl hch2⟩
    intro f hf
    obtain ⟨e, he, hre⟩ := hhead f hf
    rw [hre]
    exact hFront e he
  -- dir, `..` with failing checks
  · intro h3 s1 _ _ _ _ _ _
    exact ⟨by simp, by simp, fun _ _ _ => trivial⟩
  -- symlink over the limit
  · intro t _ _ _ _
    exact ⟨by simp, by simp, fun _ _ _ => trivial⟩
  -- symlink, SwapLink error
  · intro t er _ _ _ _ _
    exact ⟨by simp, by simp, fun _ _ _ => trivial⟩
  -- symlink, relative target
  · intro t h3 s1 hp _ _ _ hSW _
    obtain ⟨hch2, hhead⟩ := chain_swapLink_ok hSW hChain rfl hp
    refine ⟨fun w' hw' => ?_, by simp, by simp⟩
    cases hw'
    refine ⟨?_, Or.inl hch2⟩
    intro f hf
    rcases hhead f hf with ⟨e, he, hre⟩ | ⟨hsnil, hre⟩
    · rw [hre]
      exact hFront e he
    · rw [hre]
      have hch : Chain3 u w.rem w.stack.reverse := by
        rcases hChain with h | ⟨e2, hg, _⟩
        · exact h
        · rw [hsnil] at hg; simp at hg
      rw [hsnil] at hch
      simp only [List.reverse_nil, Chain3] at hch
      exact slashSuffix_suffix_of_part_ne hch hp
  -- symlink, absolute target
  · intro t h3 s1 hp _ _ _ hSW _
    obtain ⟨hch2, hhead⟩ := chain_swapLink_ok hSW hChain rfl hp
    refine ⟨fun w' hw' => ?_, by simp, by simp⟩
    cases hw'
    refine ⟨?_, Or.inl hch2⟩
    intro f hf
    rcases hhead f hf with ⟨e, he, hre⟩ | ⟨hsnil, hre⟩
    · rw [hre]
      exact hFront e he
    · rw [hre]
      have hch : Chain3 u w.rem w.stack.reverse := by
        rcases hChain with h | ⟨e2, hg, _⟩
        · exact h
        · rw [hsnil] at hg; simp at hg
      rw [hsnil] at hch
      simp only [List.reverse_nil, Chain3] at hch
      exact slashSuffix_suffix_of_part_ne hch hp
  -- other, PopPart error
  · intro er _ _ _ _
    exact ⟨by simp, by simp, fun _ _ _ => trivial⟩
  -- other, dangling
  · intro h3 f rest hp _ _ hPP
    refine ⟨by simp, fun h r w' hw' => ?_, by simp⟩
    cases hw'
    obtain ⟨_, hhead⟩ := chain_PopPart_ok hPP hChain rfl hp
    obtain ⟨e, he, hre⟩ := hhead f rfl
    rw [hre]
    exact slashSuffix_of_suffix (hFront e he)
  -- other, plain
  · intro h3 hp _ _ hPP
    refine ⟨by simp, fun h r w' hw' => ?_, by simp⟩
    cases hw'
    obtain ⟨hch2, _⟩ := chain_PopPart_ok hPP hChain rfl hp
    simp only [List.reverse_nil, Chain3] at hch2
    exact hch2

/-- C3 (counterexample to the literal claim): a symlink target's trailing
slashes enter the remaining path verbatim, so the returned remaining path
need not be a literal suffix of the request.  With `/r/a -> "c//"` and `/r/c`
a non-directory, resolving `"a/x"` succeeds with remaining path `"//x"`,
which is not a suffix of `"a/x"`. -/
theorem remaining_not_literal_suffix :
    (partialLookupInRoot ⟨fsSlash, 255, tOracle⟩ exHSt exRoot
        ['a', '/', 'x'] 30).map (fun rw => rw.1) =
      some (.inl (⟨4, [['r'], ['c']]⟩, ['/', '/', 'x'])) ∧
    ¬ (['/', '/', 'x'] <:+ ['a', '/', 'x']) := by
  constructor
  · decide
  · decide

/-- C3 (amended): whenever the walk returns with nil error, the returned
remaining path is a run of `'/'` characters followed by a literal suffix of
the original request path (the run is empty unless a symlink target with
trailing slashes was spliced in); and in the not-found case with an empty
stack the step returns exactly the remaining path captured before the
missing component was split off, so that component heads the returned
text. -/
theorem remaining_slash_suffix (cfg : Cfg) (st0 : HSt) (root : FHandle)
    (p : Str) (fuel : Nat) (h : FHandle) (r : Str) (w' : WSt)
    (hrun : partialLookupInRoot cfg st0 root p fuel = some (.inl (h, r), w')) :
    (∃ S t, r = S ++ t ∧ allSlash S ∧ t <:+ p) ∧
    (∀ w : WSt, (splitFirst w.rem).1 ≠ [] →
      lexJoin w.cp (splitFirst w.rem).1 ≠ [] →
      cfg.fs (childPath w.cur.fpath (splitFirst w.rem).1) = none →
      w.stack = [] →
      lookupStep cfg root root.fpath p w =
        .done w.cur w.rem (finishOk { w with rem := (splitFirst w.rem).2 })) := by
  constructor
  · have hinv := lookupLoop_inv cfg root root.fpath p (Inv3 p)
      (fun res w' => ∀ hh rr, res = .inl (hh, rr) → SlashSuffix p rr)
      (fun w hP hrem => by
        obtain ⟨hc, hd, hf⟩ := step_inv3 cfg root root.fpath p p w hP hrem
        refine ⟨hc, fun h r w' hs hh rr heq => ?_,
          fun e w' hs hh rr heq => by simp at heq⟩
        obtain ⟨h1, h2⟩ := Prod.mk.inj (Sum.inl.inj heq)
        subst h2
        exact hd h r w' hs)
      (fun w hP hrem hh rr heq => by
        obtain ⟨h1, h2⟩ := Prod.mk.inj (Sum.inl.inj heq)
        subst h2
        exact ⟨[], [], rfl, allSlash_nil, List.nil_suffix⟩)
    exact hinv fuel _ (.inl (h, r)) w'
      ⟨by simp, by exact Or.inl (slashSuffix_refl p)⟩ hrun h r rfl
  · intro w hp hj hfs hstk
    simp only [lookupStep]
    rw [if_neg hp, if_neg hj]
    simp only [openatFile, hfs]
    rw [hstk]
    simp only [popTopSymlink]

/-- Witness for the amended C3 theorem: the `fsSlash` run returning
remaining path `"//x"` instantiates it, exhibiting the decomposition into a
slash run and a literal suffix of `"a/x"`. -/
theorem remaining_slash_suffix_witness :
    ∃ S t, (['/', '/', 'x'] : Str) = S ++ t ∧ allSlash S ∧
      t <:+ ['a', '/', 'x'] := by
  obtain ⟨wfin, hrun⟩ : ∃ wfin,
      partialLookupInRoot ⟨fsSlash, 255, tOracle⟩ exHSt exRoot
          ['a', '/', 'x'] 30 =
        some (.inl (⟨4, [['r'], ['c']]⟩, ['/', '/', 'x']), wfin) := ⟨_, by rfl⟩
  exact (remaining_slash_suffix _ _ _ _ _ _ _ _ hrun).1

/-! ## C2 revisited: both not-found triggers, and what the non-directory
branch really returns

The ENOENT branch returns the front stack entry's saved pair without
touching the stack.  The non-directory branch is different: the code first
consumes the terminal component from the stack (`PopPart`, with its
trailing cleanup) and only then consults the stack — so when that consume
exhausts the stack, the just-opened handle is returned, not the front
entry's pair. -/

deriving instance DecidableEq for Except

/-- `/r` with `/r/a -> "b/x"`, `/r/b -> "c"`, `/r/c` a regular file: the
walk bottoms out at the non-directory `/r/c` while the outer entry for `a`
still holds the unwalked component `x`. -/
def fsMid : FS := fun p =>
  if p = [] then some .dir
  else if p = [['r']] then some .dir
  else if p = [['r'], ['a']] then some (.symlink ['b', '/', 'x'])
  else if p = [['r'], ['b']] then some (.symlink ['c'])
  else if p = [['r'], ['c']] then some .other
  else none

/-- The request path of the `fsTail` walk, `"a/extra"`. -/
def pTail : Str := ['a', '/', 'e', 'x', 't', 'r', 'a']

/-- The initial state of the `fsTail` walk of `"a/extra"`. -/
def wTail0 : WSt := ⟨⟨2, 1 ::ₘ {0}⟩, [], 0, ⟨1, [['r']]⟩, [], pTail, 0, []⟩

/-- The `fsTail` walk state after following `a -> b`. -/
def wTail1 : WSt :=
  ⟨⟨4, 3 ::ₘ 1 ::ₘ {0}⟩, [⟨⟨3, [['r']]⟩, pTail, [['b']]⟩], 1, ⟨1, [['r']]⟩,
   [], ['b', '/', 'e', 'x', 't', 'r', 'a'], 0, []⟩

/-- The `fsTail` walk state after also following `b -> c`: two stack
entries, about to open the non-directory `/r/c`. -/
def wTail2 : WSt :=
  ⟨⟨6, 5 ::ₘ 3 ::ₘ 1 ::ₘ {0}⟩,
   [⟨⟨3, [['r']]⟩, pTail, []⟩,
    ⟨⟨5, [['r']]⟩, ['b', '/', 'e', 'x', 't', 'r', 'a'], [['c']]⟩], 2,
   ⟨1, [['r']]⟩, [], ['c', '/', 'e', 'x', 't', 'r', 'a'], 0, []⟩

/-- The front (oldest) stack entry of `wTail2`: a handle denoting `/r`
with saved remaining path `"a/extra"`. -/
def eTail : SEntry := ⟨⟨3, [['r']]⟩, pTail, []⟩

/-- The final state of the `fsTail` walk of `"a/extra"`. -/
def wTailFin : WSt :=
  ⟨⟨7, 6 ::ₘ {0}⟩, [], 2, ⟨1, [['r']]⟩, [], ['e', 'x', 't', 'r', 'a'], 0, []⟩

/-- The `fsMid` walk state of `"a"` at the third iteration: about to open
the non-directory `/r/c`, with the outer entry for `a` still holding the
unwalked component `x`. -/
def wMid2 : WSt :=
  ⟨⟨6, 5 ::ₘ 3 ::ₘ 1 ::ₘ {0}⟩,
   [⟨⟨3, [['r']]⟩, ['a'], [['x']]⟩,
    ⟨⟨5, [['r']]⟩, ['b', '/', 'x', '/'], [['c']]⟩], 2,
   ⟨1, [['r']]⟩, [], ['c', '/', 'x', '/'], 0, []⟩

/-- C2 (counterexample to the literal claim): the walk of `"a/extra"` under
`/r` with `a -> b`, `b -> c` and `/r/c` a regular file reaches, after two
model iterations, a state whose component lookup bottoms out at the
non-directory `/r/c` while the resolution stack holds two entries — yet the
step (and the whole call, with nil error) returns the just-opened `/r/c`
handle with remaining path `"extra"`, not the front entry's
`(/r, "a/extra")` pair: the code consumes from the stack before consulting
it. -/
theorem nonDir_not_front_pair :
    lookupStep ⟨fsTail, 255, tOracle⟩ exRoot [['r']] pTail wTail0 =
      .cont wTail1 ∧
    lookupStep ⟨fsTail, 255, tOracle⟩ exRoot [['r']] pTail wTail1 =
      .cont wTail2 ∧
    fsTail (childPath wTail2.cur.fpath (splitFirst wTail2.rem).1) =
      some .other ∧
    wTail2.stack.head? = some eTail ∧
    lookupStep ⟨fsTail, 255, tOracle⟩ exRoot [['r']] pTail wTail2 =
      .done ⟨6, [['r'], ['c']]⟩ ['e', 'x', 't', 'r', 'a'] wTailFin ∧
    ¬ ((⟨6, [['r'], ['c']]⟩ : FHandle) = eTail.dir ∧
       (['e', 'x', 't', 'r', 'a'] : Str) = eTail.rem) ∧
    partialLookupInRoot ⟨fsTail, 255, tOracle⟩ exHSt exRoot pTail 30 =
      some (.inl (⟨6, [['r'], ['c']]⟩, ['e', 'x', 't', 'r', 'a']), wTailFin) :=
  ⟨by decide, by decide, by decide, by decide, by decide, by decide, by decide⟩

/-- C2 (amended): dangling-chain attribution, covering both triggers.
(1) When a component lookup fails with not-found while the stack is
non-empty, the walk returns, with nil error, the `(directory,
remaining_path_at_entry)` pair saved in the oldest (front) stack entry.
(2) When it bottoms out at a non-directory, the terminal component is first
consumed from the stack (`PopPart` with trailing cleanup); if entries
remain, the front entry's saved pair is returned with nil error.
(3) If that consume exhausts the stack, the just-opened non-directory
handle and the split-off remaining path are returned instead — this is how
the non-directory case departs from the literal claim. -/
theorem dangling_attribution (cfg : Cfg) (root : FHandle) (lr : FPath)
    (orig : Str) (w : WSt)
    (hp : (splitFirst w.rem).1 ≠ [])
    (hj : lexJoin w.cp (splitFirst w.rem).1 ≠ []) :
    (∀ e es, cfg.fs (childPath w.cur.fpath (splitFirst w.rem).1) = none →
      w.stack = e :: es →
      lookupStep cfg root lr orig w = .done e.dir e.rem
        (finishOk { w with hst := closeFile w.hst w.cur, stack := es,
                           rem := (splitFirst w.rem).2 }) ∧
      ∀ fuel, lookupLoop cfg root lr orig (fuel + 1) w =
        some (.inl (e.dir, e.rem),
          finishOk { w with hst := closeFile w.hst w.cur, stack := es,
                            rem := (splitFirst w.rem).2 })) ∧
    (∀ h3 f rest,
      cfg.fs (childPath w.cur.fpath (splitFirst w.rem).1) = some .other →
      PopPart (closeFile ⟨w.hst.next + 1, w.hst.next ::ₘ w.hst.opened⟩ w.cur)
        (splitFirst w.rem).1 w.stack = .ok (h3, f :: rest) →
      lookupStep cfg root lr orig w = .done f.dir f.rem
        (finishOk { w with
          hst := closeFile h3 ⟨w.hst.next, childPath w.cur.fpath (splitFirst w.rem).1⟩,
          stack := rest, rem := (splitFirst w.rem).2 }) ∧
      ∀ fuel, lookupLoop cfg root lr orig (fuel + 1) w =
        some (.inl (f.dir, f.rem),
          finishOk { w with
            hst := closeFile h3 ⟨w.hst.next, childPath w.cur.fpath (splitFirst w.rem).1⟩,
            stack := rest, rem := (splitFirst w.rem).2 })) ∧
    (∀ h3,
      cfg.fs (childPath w.cur.fpath (splitFirst w.rem).1) = some .other →
      PopPart (closeFile ⟨w.hst.next + 1, w.hst.next ::ₘ w.hst.opened⟩ w.cur)
        (splitFirst w.rem).1 w.stack = .ok (h3, []) →
      lookupStep cfg root lr orig w =
        .done ⟨w.hst.next, childPath w.cur.fpath (splitFirst w.rem).1⟩
          (splitFirst w.rem).2
          (finishOk { w with hst := h3, stack := [],
                             rem := (splitFirst w.rem).2 }) ∧
      ∀ fuel, lookupLoop cfg root lr orig (fuel + 1) w =
        some (.inl (⟨w.hst.next, childPath w.cur.fpath (splitFirst w.rem).1⟩,
            (splitFirst w.rem).2),
          finishOk { w with hst := h3, stack := [],
                            rem := (splitFirst w.rem).2 })) := by
  have hrem : w.rem ≠ [] := rem_ne_nil_of_part hp
  have H :
      (∀ e es, cfg.fs (childPath w.cur.fpath (splitFirst w.rem).1) = none →
        w.stack = e :: es →
        lookupStep cfg root lr orig w = .done e.dir e.rem
          (finishOk { w with hst := closeFile w.hst w.cur, stack := es,
                             rem := (splitFirst w.rem).2 })) ∧
      (∀ h3 f rest,
        cfg.fs (childPath w.cur.fpath (splitFirst w.rem).1) = some .other →
        PopPart (closeFile ⟨w.hst.next + 1, w.hst.next ::ₘ w.hst.opened⟩ w.cur)
          (splitFirst w.rem).1 w.stack = .ok (h3, f :: rest) →
        lookupStep cfg root lr orig w = .done f.dir f.rem
          (finishOk { w with
            hst := closeFile h3 ⟨w.hst.next, childPath w.cur.fpath (splitFirst w.rem).1⟩,
            stack := rest, rem := (splitFirst w.rem).2 })) ∧
      (∀ h3,
        cfg.fs (childPath w.cur.fpath (splitFirst w.rem).1) = some .other →
        PopPart (closeFile ⟨w.hst.next + 1, w.hst.next ::ₘ w.hst.opened⟩ w.cur)
          (splitFirst w.rem).1 w.stack = .ok (h3, []) →
        lookupStep cfg root lr orig w =
          .done ⟨w.hst.next, childPath w.cur.fpath (splitFirst w.rem).1⟩
            (splitFirst w.rem).2
            (finishOk { w with hst := h3, stack := [],
                               rem := (splitFirst w.rem).2 })) := by
    refine lookupStep_elim cfg root lr orig w (splitFirst w.rem).1
      (splitFirst w.rem).2 rfl _ rfl _ rfl
      (fun sr =>
        (∀ e es, cfg.fs (childPath w.cur.fpath (splitFirst w.rem).1) = none →
          w.stack = e :: es →
          sr = .done e.dir e.rem
            (finishOk { w with hst := closeFile w.hst w.cur, stack := es,
                               rem := (splitFirst w.rem).2 })) ∧
        (∀ h3 f rest,
          cfg.fs (childPath w.cur.fpath (splitFirst w.rem).1) = some .other →
          PopPart (closeFile ⟨w.hst.next + 1, w.hst.next ::ₘ w.hst.opened⟩ w.cur)
            (splitFirst w.rem).1 w.stack = .ok (h3, f :: rest) →
          sr = .done f.dir f.rem
            (finishOk { w with
              hst := closeFile h3 ⟨w.hst.next, childPath w.cur.fpath (splitFirst w.rem).1⟩,
              stack := rest, rem := (splitFirst w.rem).2 })) ∧
        (∀ h3,
          cfg.fs (childPath w.cur.fpath (splitFirst w.rem).1) = some .other →
          PopPart (closeFile ⟨w.hst.next + 1, w.hst.next ::ₘ w.hst.opened⟩ w.cur)
            (splitFirst w.rem).1 w.stack = .ok (h3, []) →
          sr = .done ⟨w.hst.next, childPath w.cur.fpath (splitFirst w.rem).1⟩
            (splitFirst w.rem).2
            (finishOk { w with hst := h3, stack := [],
                               rem := (splitFirst w.rem).2 })))
      ?_ ?_ ?_ ?_ ?_ ?_ ?_ ?_ ?_ ?_ ?_ ?_ ?_ ?_ ?_ ?_
    -- skip
    · intro hp0
      exact absurd hp0 hp
    -- jump-to-root, PopPart error
    · intro er _ hj0 _
      exact absurd hj0 hj
    -- jump-to-root, ok
    · intro h1 s1 _ hj0 _
      exact absurd hj0 hj
    -- not-found, dangling
    · intro e es _ _ hfs hstack
      refine ⟨fun e' es' hfs' hstk' => ?_, fun h3 f rest hfs' hPP' => ?_,
        fun h3 hfs' hPP' => ?_⟩
      · rw [hstack] at hstk'
        obtain ⟨h1, h2⟩ := List.cons.inj hstk'
        subst h1
        subst h2
        rfl
      · rw [hfs] at hfs'
        exact Option.noConfusion hfs'
      · rw [hfs] at hfs'
        exact Option.noConfusion hfs'
    -- not-found, plain
    · intro _ _ hfs hstk
      refine ⟨fun e' es' hfs' hstk' => ?_, fun h3 f rest hfs' hPP' => ?_,
        fun h3 hfs' hPP' => ?_⟩
      · rw [hstk] at hstk'
        exact List.noConfusion hstk'
      · rw [hfs] at hfs'
        exact Option.noConfusion hfs'
      · rw [hfs] at hfs'
        exact Option.noConfusion hfs'
    -- dir, PopPart error
    · intro er _ _ hfs _
      refine ⟨fun e' es' hfs' hstk' => ?_, fun h3 f rest hfs' hPP' => ?_,
        fun h3 hfs' hPP' => ?_⟩
      · rw [hfs] at hfs'
        exact Option.noConfusion hfs'
      · rw [hfs] at hfs'
        exact FNode.noConfusion (Option.some.inj hfs')
      · rw [hfs] at hfs'
        exact FNode.noConfusion (Option.some.inj hfs')
    -- dir, normal descent
    · intro h3 s1 _ _ hfs _ _
      refine ⟨fun e' es' hfs' hstk' => ?_, fun h3' f rest hfs' hPP' => ?_,
        fun h3' hfs' hPP' => ?_⟩
      · rw [hfs] at hfs'
        exact Option.noConfusion hfs'
      · rw [hfs] at hfs'
        exact FNode.noConfusion (Option.some.inj hfs')
      · rw [hfs] at hfs'
        exact FNode.noConfusion (Option.some.inj hfs')
    -- dir, `..` with passing checks
    · intro h3 s1 _ _ hfs _ _ _
      refine ⟨fun e' es' hfs' hstk' => ?_, fun h3' f rest hfs' hPP' => ?_,
        fun h3' hfs' hPP' => ?_⟩
      · rw [hfs] at hfs'
        exact Option.noConfusion hfs'
      · rw [hfs] at hfs'
        exact FNode.noConfusion (Option.some.inj hfs')
      · rw [hfs] at hfs'
        exact FNode.noConfusion (Option.some.inj hfs')
    -- dir, `..` with failing checks
    · intro h3 s1 _ _ hfs _ _ _
      refine ⟨fun e' es' hfs' hstk' => ?_, fun h3' f rest hfs' hPP' => ?_,
        fun h3' hfs' hPP' => ?_⟩
      · rw [hfs] at hfs'
        exact Option.noConfusion hfs'
      · rw [hfs] at hfs'
        exact FNode.noConfusion (Option.some.inj hfs')
      · rw [hfs] at hfs'
        exact FNode.noConfusion (Option.some.inj hfs')
    -- symlink over the limit
    · intro t _ _ hfs _
      refine ⟨fun e' es' hfs' hstk' => ?_, fun h3 f rest hfs' hPP' => ?_,
        fun h3 hfs' hPP' => ?_⟩
      · rw [hfs] at hfs'
        exact Option.noConfusion hfs'
      · rw [hfs] at hfs'
        exact FNode.noConfusion (Option.some.inj hfs')
      · rw [hfs] at hfs'
        exact FNode.noConfusion (Option.some.inj hfs')
    -- symlink, SwapLink error
    · intro t er _ _ hfs _ _
      refine ⟨fun e' es' hfs' hstk' => ?_, fun h3 f rest hfs' hPP' => ?_,
        fun h3 hfs' hPP' => ?_⟩
      · rw [hfs] at hfs'
        exact Option.noConfusion hfs'
      · rw [hfs] at hfs'
        exact FNode.noConfusion (Option.some.inj hfs')
      · rw [hfs] at hfs'
        exact FNode.noConfusion (Option.some.inj hfs')
    -- symlink, relative target
    · intro t h3 s1 _ _ hfs _ _ _
      refine ⟨fun e' es' hfs' hstk' => ?_, fun h3' f rest hfs' hPP' => ?_,
        fun h3' hfs' hPP' => ?_⟩
      · rw [hfs] at hfs'
        exact Option.noConfusion hfs'
      · rw [hfs] at hfs'
        exact FNode.noConfusion (Option.some.inj hfs')
      · rw [hfs] at hfs'
        exact FNode.noConfusion (Option.some.inj hfs')
    -- symlink, absolute target
    · intro t h3 s1 _ _ hfs _ _ _
      refine ⟨fun e' es' hfs' hstk' => ?_, fun h3' f rest hfs' hPP' => ?_,
        fun h3' hfs' hPP' => ?_⟩
      · rw [hfs] at hfs'
        exact Option.noConfusion hfs'
      · rw [hfs] at hfs'
        exact FNode.noConfusion (Option.some.inj hfs')
      · rw [hfs] at hfs'
        exact FNode.noConfusion (Option.some.inj hfs')
    -- other, PopPart error
    · intro er _ _ hfs hPPerr
      refine ⟨fun e' es' hfs' hstk' => ?_, fun h3 f rest hfs' hPP' => ?_,
        fun h3 hfs' hPP' => ?_⟩
      · rw [hfs] at hfs'
        exact Option.noConfusion hfs'
      · rw [hPPerr] at hPP'
        exact Except.noConfusion hPP'
      · rw [hPPerr] at hPP'
        exact Except.noConfusion hPP'
    -- other, dangling
    · intro h3 f rest _ _ hfs hPP
      refine ⟨fun e' es' hfs' hstk' => ?_, fun h3' f' rest' hfs' hPP' => ?_,
        fun h3' hfs' hPP' => ?_⟩
      · rw [hfs] at hfs'
        exact Option.noConfusion hfs'
      · rw [hPP] at hPP'
        obtain ⟨hh, hpr⟩ := Prod.mk.inj (Except.ok.inj hPP')
        obtain ⟨hf1, hr1⟩ := List.cons.inj hpr
        subst hh
        subst hf1
        subst hr1
        rfl
      · rw [hPP] at hPP'
        obtain ⟨hh, hpr⟩ := Prod.mk.inj (Except.ok.inj hPP')
        exact List.noConfusion hpr
    -- other, plain
    · intro h3 _ _ hfs hPP
      refine ⟨fun e' es' hfs' hstk' => ?_, fun h3' f' rest' hfs' hPP' => ?_,
        fun h3' hfs' hPP' => ?_⟩
      · rw [hfs] at hfs'
        exact Option.noConfusion hfs'
      · rw [hPP] at hPP'
        obtain ⟨hh, hpr⟩ := Prod.mk.inj (Except.ok.inj hPP')
        exact List.noConfusion hpr
      · rw [hPP] at hPP'
        obtain ⟨hh, hpr⟩ := Prod.mk.inj (Except.ok.inj hPP')
        subst hh
        rfl
  obtain ⟨H1, H2, H3⟩ := H
  refine ⟨fun e es hfs hstk => ⟨H1 e es hfs hstk, fun fuel => ?_⟩,
    fun h3 f rest hfs hPP => ⟨H2 h3 f rest hfs hPP, fun fuel => ?_⟩,
    fun h3 hfs hPP => ⟨H3 h3 hfs hPP, fun fuel => ?_⟩⟩
  · unfold lookupLoop
    rw [if_neg hrem, H1 e es hfs hstk]
  · unfold lookupLoop
    rw [if_neg hrem, H2 h3 f rest hfs hPP]
  · unfold lookupLoop
    rw [if_neg hrem, H3 h3 hfs hPP]

/-- Witness for `dangling_attribution`, exercising all three exit shapes at
concrete walk states: (1) the `fsDangling` not-found state returns the
front pair `(/r, "a")`; (2) the `fsMid` non-directory state, whose outer
entry still holds an unwalked component, returns the front pair
`(/r, "a")`; (3) the `fsTail` non-directory state, whose consume exhausts
the stack, returns the opened `/r/c` handle with remaining `"extra"`; plus
the end-to-end `fsMid` run. -/
theorem dangling_attribution_witness :
    (∃ w', lookupStep ⟨fsDangling, 255, tOracle⟩ exRoot [['r']] ['a']
        ⟨⟨5, 4 ::ₘ 3 ::ₘ {0}⟩, [⟨⟨3, [['r']]⟩, ['a'], [['c']]⟩], 1,
         ⟨4, [['r'], ['b']]⟩, [['b']], ['c'], 0, []⟩ =
      .done (⟨3, [['r']]⟩ : FHandle) ['a'] w') ∧
    (∃ w', lookupStep ⟨fsMid, 255, tOracle⟩ exRoot [['r']] ['a'] wMid2 =
      .done (⟨3, [['r']]⟩ : FHandle) ['a'] w') ∧
    (∃ w', lookupStep ⟨fsTail, 255, tOracle⟩ exRoot [['r']] pTail wTail2 =
      .done (⟨6, [['r'], ['c']]⟩ : FHandle) ['e', 'x', 't', 'r', 'a'] w') ∧
    partialLookupInRoot ⟨fsMid, 255, tOracle⟩ exHSt exRoot ['a'] 20 =
      some (.inl (⟨3, [['r']]⟩, ['a']),
        ⟨⟨7, 3 ::ₘ {0}⟩, [], 2, ⟨1, [['r']]⟩, [], ['x', '/'], 0, []⟩) :=
  ⟨⟨_, ((dangling_attribution ⟨fsDangling, 255, tOracle⟩ exRoot [['r']] ['a']
      ⟨⟨5, 4 ::ₘ 3 ::ₘ {0}⟩, [⟨⟨3, [['r']]⟩, ['a'], [['c']]⟩], 1,
       ⟨4, [['r'], ['b']]⟩, [['b']], ['c'], 0, []⟩
      (by decide) (by decide)).1 ⟨⟨3, [['r']]⟩, ['a'], [['c']]⟩ []
      (by decide) (by decide)).1⟩,
   ⟨_, ((dangling_attribution ⟨fsMid, 255, tOracle⟩ exRoot [['r']] ['a'] wMid2
      (by decide) (by decide)).2.1 ⟨7, 6 ::ₘ 3 ::ₘ {0}⟩
      ⟨⟨3, [['r']]⟩, ['a'], [['x']]⟩ [] (by decide) (by decide)).1⟩,
   ⟨_, ((dangling_attribution ⟨fsTail, 255, tOracle⟩ exRoot [['r']] pTail wTail2
      (by decide) (by decide)).2.2 ⟨7, 6 ::ₘ {0}⟩
      (by decide) (by decide)).1⟩,
   by decide⟩
